import Mathlib

/-!
Verification of the Watch.ai tool-calling agent loop.

This file gives a shallow embedding, in Lean, of the core agent-loop logic of
the Watch.ai repository and proves the testable properties stated in its
specification against that embedding.  The repository carries two
near-duplicate implementations of the loop:

* the standalone server (`server/index.js`): the `/api/agent/chat` round loop,
  its tool handlers (`toolHandlers.editFile`, `toolHandlers.listFiles`, ...),
  and the `/api/agent/approve` endpoint;
* the VS Code extension (`extensions/watch-ai/src/extension.ts`):
  `_runAgentLoop` with its SSE stream decoder, `Promise.all` tool batch,
  `_runTerminalCommand`, `_searchReplace`, `_editFile`, `_listDir`, and the
  pending-edit approval table.

Strings are modelled as `List Char`; JavaScript's `JSON.parse` is modelled as
an opaque pure function passed as a parameter (`none` stands for a parse that
throws); filesystem state is an association list from paths to contents;
process spawns and webview `postMessage` calls are recorded in explicit
traces so that ordering properties ("approval before spawn") are provable.
-/

namespace WatchAI

/-- Strings are modelled as lists of characters. -/
abbrev Str := List Char

/-- JavaScript whitespace test used by `String.prototype.trim` (restricted to
the whitespace characters that can actually occur in an SSE line). -/
def wsChar (c : Char) : Bool := c = ' ' || c = '\t' || c = '\r' || c = '\n'

/-- Model of JavaScript `s.trim()`: drop whitespace from both ends. -/
def jsTrim (s : Str) : Str := ((s.dropWhile wsChar).reverse.dropWhile wsChar).reverse

/-- Index of the first occurrence of `old` in `s` (the position JavaScript's
`String.prototype.indexOf`/`replace` would find), `none` if absent. -/
def firstOcc (old : Str) : Str → Option Nat
  | [] => if old.isEmpty then some 0 else none
  | c :: s' =>
    if old.isPrefixOf (c :: s') then some 0
    else (firstOcc old s').map (· + 1)

/-- Model of JavaScript `s.includes(old)`. -/
def jsIncludes (s old : Str) : Bool := (firstOcc old s).isSome

/-- The backquote character, U+0060 (written through its code point so that
the source text carries no raw backquote). -/
def backquoteChar : Char := Char.ofNat 96

/-- The single-quote character, U+0027. -/
def singleQuoteChar : Char := Char.ofNat 39

/-- ECMA-262 `GetSubstitution` for a plain-string search pattern, applied to
the replacement string: `$$` yields a dollar sign, `$&` the matched text,
`$` followed by a backquote the portion of the subject before the match, and
`$` followed by a single quote the portion after it; any other use of `$`
(including `$<digit>` and `$<name>`, since a string pattern has no capture
groups) is literal.  `matched` is the matched text, `before`/`after` the
subject around the match. -/
def getSubstitution (matched before after : Str) : Str → Str
  | [] => []
  | c :: rest =>
    if c = '$' then
      match rest with
      | [] => ['$']
      | d :: rest' =>
        if d = '$' then '$' :: getSubstitution matched before after rest'
        else if d = '&' then matched ++ getSubstitution matched before after rest'
        else if d = backquoteChar then before ++ getSubstitution matched before after rest'
        else if d = singleQuoteChar then after ++ getSubstitution matched before after rest'
        else '$' :: getSubstitution matched before after (d :: rest')
    else c :: getSubstitution matched before after rest

/-- Model of JavaScript `s.replace(old, new)` with a plain-string pattern,
following ECMA-262 `String.prototype.replace`: locate the first occurrence
of `old`, and splice in `GetSubstitution` of the replacement string (which
is the replacement string itself whenever it contains no dollar sign). -/
def jsReplace (old newS s : Str) : Str :=
  match firstOcc old s with
  | none => s
  | some i =>
    s.take i ++ getSubstitution old (s.take i) (s.drop (i + old.length)) newS ++
      s.drop (i + old.length)

/-- All positions at which `old` occurs in `s`, in increasing order. -/
def occList (old : Str) : Str → List Nat
  | [] => if old.isEmpty then [0] else []
  | c :: s' =>
    (if old.isPrefixOf (c :: s') then [0] else []) ++ (occList old s').map (· + 1)

/-- Number of lines of a string, as computed by `content.split('\n').length`
in the source: one more than the number of newline characters. -/
def lineCount (s : Str) : Nat := s.count '\n' + 1

/-! ### Basic facts about first occurrences -/

theorem firstOcc_le_length (old : Str) : ∀ (s : Str) (i : Nat), firstOcc old s = some i → i ≤ s.length := by
  intro s
  induction s with
  | nil =>
    intro i h
    simp only [firstOcc] at h
    split at h
    · cases h; simp
    · cases h
  | cons c s' ih =>
    intro i h
    simp only [firstOcc] at h
    split at h
    · cases h; simp
    · match hh : firstOcc old s' with
      | none => rw [hh] at h; cases h
      | some j =>
        rw [hh] at h
        simp only [Option.map_some'] at h
        cases h
        have := ih j hh
        simpa using Nat.succ_le_succ this

theorem firstOcc_isPrefix (old : Str) : ∀ (s : Str) (i : Nat), firstOcc old s = some i →
    old.isPrefixOf (s.drop i) = true := by
  intro s
  induction s with
  | nil =>
    intro i h
    simp only [firstOcc] at h
    split at h
    · cases h
      rename_i he
      simp [List.isEmpty_iff] at he
      simp [he, List.isPrefixOf]
    · cases h
  | cons c s' ih =>
    intro i h
    simp only [firstOcc] at h
    split at h
    · cases h
      rename_i hp
      simpa using hp
    · match hh : firstOcc old s' with
      | none => rw [hh] at h; cases h
      | some j =>
        rw [hh] at h
        simp only [Option.map_some'] at h
        cases h
        simpa using ih j hh

theorem mem_occList (old : Str) : ∀ (s : Str) (j : Nat), j ∈ occList old s →
    old.isPrefixOf (s.drop j) = true := by
  intro s
  induction s with
  | nil =>
    intro j h
    simp only [occList] at h
    split at h
    · rename_i he
      simp at h
      subst h
      simp [List.isEmpty_iff] at he
      simp [he, List.isPrefixOf]
    · simp at h
  | cons c s' ih =>
    intro j h
    simp only [occList, List.mem_append, List.mem_map] at h
    rcases h with h | ⟨k, hk, rfl⟩
    · split at h
      · rename_i hp
        simp at h
        subst h
        simpa using hp
      · simp at h
    · simpa using ih k hk

theorem head_occList_eq_firstOcc (old : Str) : ∀ (s : Str), (occList old s).head? = firstOcc old s := by
  intro s
  induction s with
  | nil => simp only [occList, firstOcc]; split <;> rfl
  | cons c s' ih =>
    simp only [occList, firstOcc]
    split
    · rfl
    · simp [List.head?_map, ih]

theorem getSubstitution_no_dollar (matched before after : Str) :
    ∀ (r : Str), '$' ∉ r → getSubstitution matched before after r = r := by
  intro r
  induction r with
  | nil => intro _; rfl
  | cons c rest ih =>
    intro h
    have hc : ¬ c = '$' := fun he => h (by simp [he])
    have hrest : '$' ∉ rest := fun hm => h (by simp [hm])
    have hstep : getSubstitution matched before after (c :: rest) =
        c :: getSubstitution matched before after rest := by
      rw [getSubstitution.eq_def]
      simp [hc]
    rw [hstep, ih hrest]

theorem jsReplace_spec (old newS s : Str) (i : Nat) (h : firstOcc old s = some i) :
    jsReplace old newS s =
      s.take i ++ getSubstitution old (s.take i) (s.drop (i + old.length)) newS ++
        s.drop (i + old.length) := by
  unfold jsReplace
  rw [h]

/-! ## File-editing tools

Server `toolHandlers.editFile` (`server/index.js`) and the extension's
`_searchReplace` (`extension.ts`).  The filesystem is an association list of
`(path, content)` pairs. -/

/-- Filesystem model: association list from paths to file contents. -/
abbrev Fs := List (Str × Str)

/-- Read a file (model of `fs.readFileSync`, `vscode.workspace.fs.readFile`):
`none` when the path does not exist (a read that throws). -/
def lookupFs : Fs → Str → Option Str
  | [], _ => none
  | (p, c) :: rest, q => if p = q then some c else lookupFs rest q

/-- Write a file (model of `fs.writeFileSync`, `vscode.workspace.fs.writeFile`). -/
def writeFs : Fs → Str → Str → Fs
  | [], p, c => [(p, c)]
  | (q, d) :: rest, p, c => if q = p then (p, c) :: rest else (q, d) :: writeFs rest p c

/-- Result record of the server's `editFile` tool handler (the fields the
handler puts in its returned object; the human-readable `message` is kept as
the pair of line counts it interpolates). -/
structure EditResult where
  success : Bool
  error : Option Str
  hint : Option Str
  linesReplaced : Option (Nat × Nat)
deriving DecidableEq, Repr

/-- `'File does not exist'` -/
def msgNoFile : Str := "File does not exist".toList

/-- `'Old text not found in file. ...'` -/
def msgNotFound : Str :=
  "Old text not found in file. Make sure to use exact text including whitespace.".toList

/-- `'Try reading the file first to get exact content'` -/
def msgHint : Str := "Try reading the file first to get exact content".toList

/-- Server tool handler `toolHandlers.editFile` (`server/index.js`): checks
existence, checks `content.includes(oldText)`, then performs
`content.replace(oldText, newText)` (first occurrence) and writes the file. -/
def editFile (fs : Fs) (filePath oldText newText : Str) : EditResult × Fs :=
  match lookupFs fs filePath with
  | none => (⟨false, some msgNoFile, none, none⟩, fs)
  | some content =>
    if jsIncludes content oldText then
      let newContent := jsReplace oldText newText content
      (⟨true, none, none, some (lineCount oldText, lineCount newText)⟩,
        writeFs fs filePath newContent)
    else
      (⟨false, some msgNotFound, some msgHint, none⟩, fs)

/-- Result of the extension's `_searchReplace`. -/
structure SrResult where
  success : Bool
  error : Option Str
deriving DecidableEq, Repr

/-- `'Eski metin bulunamadı.'` -/
def msgEskiMetin : Str := "Eski metin bulunamadı.".toList

/-- Extension tool `_searchReplace` (`extension.ts`): reads the file (a
missing file makes `readFile` throw, surfaced by the caller as an error
result), checks `content.includes(oldStr)`, then `content.replace(oldStr,
newStr)` and writes back. -/
def searchReplace (fs : Fs) (filePath oldStr newStr : Str) : SrResult × Fs :=
  match lookupFs fs filePath with
  | none => (⟨false, some "ENOENT".toList⟩, fs)
  | some content =>
    if jsIncludes content oldStr then
      (⟨true, none⟩, writeFs fs filePath (jsReplace oldStr newStr content))
    else
      (⟨false, some msgEskiMetin⟩, fs)

/-- Claim C5: for every file whose current content does not contain `oldText`,
both `editFile` (server) and `search_replace` (extension) return a
NotFound-class error and perform no write: the filesystem after the call is
equal to the filesystem before the call. -/
theorem editFile_notFound_no_write (fs : Fs) (p oldText newText content : Str)
    (hread : lookupFs fs p = some content)
    (habs : jsIncludes content oldText = false) :
    (editFile fs p oldText newText).2 = fs ∧
    (editFile fs p oldText newText).1.success = false ∧
    (editFile fs p oldText newText).1.error = some msgNotFound ∧
    (searchReplace fs p oldText newText).2 = fs ∧
    (searchReplace fs p oldText newText).1.success = false ∧
    (searchReplace fs p oldText newText).1.error = some msgEskiMetin := by
  simp [editFile, searchReplace, hread, habs]

/-- Witness for C5 at a concrete input: the file `f.txt` contains `hello`,
`xyz` does not occur in it, and the call leaves the filesystem unchanged. -/
theorem editFile_notFound_no_write_witness :
    lookupFs [("f.txt".toList, "hello".toList)] "f.txt".toList = some "hello".toList ∧
    jsIncludes "hello".toList "xyz".toList = false ∧
    ((editFile [("f.txt".toList, "hello".toList)] "f.txt".toList "xyz".toList "Q".toList).2 =
        [("f.txt".toList, "hello".toList)] ∧
      (editFile [("f.txt".toList, "hello".toList)] "f.txt".toList "xyz".toList "Q".toList).1.success = false ∧
      (editFile [("f.txt".toList, "hello".toList)] "f.txt".toList "xyz".toList "Q".toList).1.error = some msgNotFound ∧
      (searchReplace [("f.txt".toList, "hello".toList)] "f.txt".toList "xyz".toList "Q".toList).2 =
        [("f.txt".toList, "hello".toList)] ∧
      (searchReplace [("f.txt".toList, "hello".toList)] "f.txt".toList "xyz".toList "Q".toList).1.success = false ∧
      (searchReplace [("f.txt".toList, "hello".toList)] "f.txt".toList "xyz".toList "Q".toList).1.error = some msgEskiMetin) :=
  ⟨by decide, by decide,
    editFile_notFound_no_write [("f.txt".toList, "hello".toList)] "f.txt".toList
      "xyz".toList "Q".toList "hello".toList (by decide) (by decide)⟩

theorem lookupFs_writeFs_self (fs : Fs) (p c : Str) :
    lookupFs (writeFs fs p c) p = some c := by
  induction fs with
  | nil => simp [writeFs, lookupFs]
  | cons qd rest ih =>
    obtain ⟨q, d⟩ := qd
    by_cases hq : q = p
    · simp [writeFs, hq, lookupFs]
    · simp [writeFs, hq, lookupFs, ih]

/-- Counterexample to claim C6 as stated: `editFile`/`search_replace` do not
in general replace the first occurrence with `newText` itself, because
JavaScript `String.prototype.replace` applies the ECMA-262 `$`-substitution
patterns to the replacement even for plain-string search patterns.  On the
file content `abcabc` (where `abc` occurs twice, first at position 0),
replacing `abc` by `Y$&Z` produces `YabcZabc` in both implementations — not
the literal splice `Y$&Zabc` the claim describes. -/
theorem editFile_dollar_substitution_counterexample :
    2 ≤ (occList "abc".toList "abcabc".toList).length ∧
    (occList "abc".toList "abcabc".toList).head? = some 0 ∧
    lookupFs (editFile [("f".toList, "abcabc".toList)] "f".toList "abc".toList
        "Y$&Z".toList).2 "f".toList = some "YabcZabc".toList ∧
    lookupFs (searchReplace [("f".toList, "abcabc".toList)] "f".toList "abc".toList
        "Y$&Z".toList).2 "f".toList = some "YabcZabc".toList ∧
    ("YabcZabc".toList : Str) ≠
      "abcabc".toList.take 0 ++ "Y$&Z".toList ++
        "abcabc".toList.drop (0 + "abc".toList.length) := by
  refine ⟨by decide, by decide, by decide, by decide, by decide⟩

/-- Claim C6 (amended): when `oldText` occurs two or more times in the file,
both the server `editFile` and the extension `search_replace` replace exactly
one occurrence — the first — with the ECMA-262 `$`-expansion of `newText`
(which is `newText` itself whenever `newText` contains no dollar sign), and
every occurrence lying beyond the replaced region survives byte-for-byte at
its shifted position in the new content. -/
theorem editFile_replaces_first_occurrence (fs : Fs) (p oldText newText content : Str) (i₀ : Nat)
    (hread : lookupFs fs p = some content)
    (h2 : 2 ≤ (occList oldText content).length)
    (hfirst : (occList oldText content).head? = some i₀) :
    (editFile fs p oldText newText).1.success = true ∧
    lookupFs (editFile fs p oldText newText).2 p =
      some (content.take i₀ ++
        getSubstitution oldText (content.take i₀) (content.drop (i₀ + oldText.length)) newText ++
        content.drop (i₀ + oldText.length)) ∧
    (searchReplace fs p oldText newText).1.success = true ∧
    lookupFs (searchReplace fs p oldText newText).2 p =
      some (content.take i₀ ++
        getSubstitution oldText (content.take i₀) (content.drop (i₀ + oldText.length)) newText ++
        content.drop (i₀ + oldText.length)) ∧
    ('$' ∉ newText →
      getSubstitution oldText (content.take i₀) (content.drop (i₀ + oldText.length)) newText =
        newText) ∧
    ∀ j ∈ occList oldText content, i₀ + oldText.length ≤ j →
      oldText.isPrefixOf
        ((content.take i₀ ++
          getSubstitution oldText (content.take i₀) (content.drop (i₀ + oldText.length)) newText ++
          content.drop (i₀ + oldText.length)).drop
            (i₀ + (getSubstitution oldText (content.take i₀)
              (content.drop (i₀ + oldText.length)) newText).length +
              (j - (i₀ + oldText.length)))) = true := by
  have hocc : firstOcc oldText content = some i₀ := by
    rw [← head_occList_eq_firstOcc]; exact hfirst
  have hinc : jsIncludes content oldText = true := by
    simp [jsIncludes, hocc]
  have hrepl := jsReplace_spec oldText newText content i₀ hocc
  have hle : i₀ ≤ content.length := firstOcc_le_length oldText content i₀ hocc
  have hlen : (content.take i₀ ++
      getSubstitution oldText (content.take i₀) (content.drop (i₀ + oldText.length)) newText).length =
      i₀ + (getSubstitution oldText (content.take i₀)
        (content.drop (i₀ + oldText.length)) newText).length := by
    simp [List.length_take, Nat.min_eq_left hle]
  refine ⟨?_, ?_, ?_, ?_, ?_, ?_⟩
  · simp [editFile, hread, hinc]
  · simp only [editFile, hread, hinc, if_true]
    rw [hrepl, lookupFs_writeFs_self]
  · simp [searchReplace, hread, hinc]
  · simp only [searchReplace, hread, hinc, if_true]
    rw [hrepl, lookupFs_writeFs_self]
  · intro h
    exact getSubstitution_no_dollar oldText (content.take i₀)
      (content.drop (i₀ + oldText.length)) newText h
  · intro j hj hge
    have hpre := mem_occList oldText content j hj
    have harith : i₀ + (getSubstitution oldText (content.take i₀)
        (content.drop (i₀ + oldText.length)) newText).length + (j - (i₀ + oldText.length)) =
        (content.take i₀ ++ getSubstitution oldText (content.take i₀)
          (content.drop (i₀ + oldText.length)) newText).length + (j - (i₀ + oldText.length)) := by
      rw [hlen]
    rw [harith]
    have hassoc : content.take i₀ ++
        getSubstitution oldText (content.take i₀) (content.drop (i₀ + oldText.length)) newText ++
        content.drop (i₀ + oldText.length) =
        (content.take i₀ ++
          getSubstitution oldText (content.take i₀) (content.drop (i₀ + oldText.length)) newText) ++
          content.drop (i₀ + oldText.length) := by
      simp [List.append_assoc]
    rw [hassoc, List.drop_append]
    rw [List.drop_drop]
    have : i₀ + oldText.length + (j - (i₀ + oldText.length)) = j :=
      Nat.add_sub_cancel' hge
    rw [this]
    exact hpre

/-- Witness for the amended C6 at a concrete input: in `abcabc`, the pattern
`abc` occurs twice; replacing it by the dollar-free `X` produces `Xabc`, and
the second occurrence (originally at position 3) survives at its shifted
position. -/
theorem editFile_replaces_first_occurrence_witness :
    (2 ≤ (occList "abc".toList "abcabc".toList).length ∧
      (occList "abc".toList "abcabc".toList).head? = some 0) ∧
    ((editFile [("f".toList, "abcabc".toList)] "f".toList "abc".toList "X".toList).1.success = true ∧
      lookupFs (editFile [("f".toList, "abcabc".toList)] "f".toList "abc".toList "X".toList).2 "f".toList =
        some ("abcabc".toList.take 0 ++
          getSubstitution "abc".toList ("abcabc".toList.take 0)
            ("abcabc".toList.drop (0 + "abc".toList.length)) "X".toList ++
          "abcabc".toList.drop (0 + "abc".toList.length)) ∧
      (searchReplace [("f".toList, "abcabc".toList)] "f".toList "abc".toList "X".toList).1.success = true ∧
      lookupFs (searchReplace [("f".toList, "abcabc".toList)] "f".toList "abc".toList "X".toList).2 "f".toList =
        some ("abcabc".toList.take 0 ++
          getSubstitution "abc".toList ("abcabc".toList.take 0)
            ("abcabc".toList.drop (0 + "abc".toList.length)) "X".toList ++
          "abcabc".toList.drop (0 + "abc".toList.length)) ∧
      ('$' ∉ "X".toList →
        getSubstitution "abc".toList ("abcabc".toList.take 0)
          ("abcabc".toList.drop (0 + "abc".toList.length)) "X".toList = "X".toList) ∧
      ∀ j ∈ occList "abc".toList "abcabc".toList, 0 + "abc".toList.length ≤ j →
        "abc".toList.isPrefixOf
          (("abcabc".toList.take 0 ++
            getSubstitution "abc".toList ("abcabc".toList.take 0)
              ("abcabc".toList.drop (0 + "abc".toList.length)) "X".toList ++
            "abcabc".toList.drop (0 + "abc".toList.length)).drop
              (0 + (getSubstitution "abc".toList ("abcabc".toList.take 0)
                ("abcabc".toList.drop (0 + "abc".toList.length)) "X".toList).length +
                (j - (0 + "abc".toList.length)))) = true) :=
  ⟨⟨by decide, by decide⟩,
    editFile_replaces_first_occurrence [("f".toList, "abcabc".toList)] "f".toList
      "abc".toList "X".toList "abcabc".toList 0 (by decide) (by decide) (by decide)⟩

/-! ## The `/api/agent/approve` endpoint (`server/index.js`)

The handler reads `toolCallId`, `command`, `cwd` from the request body and
runs `execSync(command, { cwd: cwd || WORKSPACE_DIR, timeout: 60000 })` in a
straight line: there is no pending-approval table in the server and no check
that the pair was ever announced by an `approval_required` event.  The shell
is modelled by a function from the issued call to its outcome; the list of
issued calls is returned so that "executed exactly once" is expressible. -/

/-- One `execSync` invocation, with the options the endpoint passes. -/
structure ExecCall where
  command : Str
  cwd : Str
  timeoutMs : Nat
deriving DecidableEq, Repr

/-- Outcome of `execSync`: normal output, or a thrown error (non-zero exit or
timeout) carrying `e.message` and `e.stderr`. -/
inductive ExecOutcome
  | ok (output : Str)
  | thrown (message : Str) (stderr : Str)
deriving DecidableEq, Repr

/-- Request body of `POST /api/agent/approve`. -/
structure ApproveBody where
  toolCallId : Str
  command : Str
  cwd : Option Str
deriving DecidableEq, Repr

/-- JSON response of the endpoint (`type: 'tool_result'`). -/
structure ApproveResponse where
  toolCallId : Str
  success : Bool
  output : Option Str
  error : Option Str
  stderr : Option Str
deriving DecidableEq, Repr

/-- The response the handler builds from the `execSync` outcome (the
`try`/`catch` around it: success payload, or `e.message`/`e.stderr`). -/
def approveResponseFor (toolCallId : Str) : ExecOutcome → ApproveResponse
  | .ok out => ⟨toolCallId, true, some out, none, none⟩
  | .thrown m st => ⟨toolCallId, false, none, some m, some st⟩

/-- The `/api/agent/approve` handler: unconditionally `execSync` the body's
command with a 60000 ms timeout, then report the outcome.  `shell` is the
ambient shell behaviour; `ws` is `WORKSPACE_DIR`. -/
def approveEndpoint (ws : Str) (shell : ExecCall → ExecOutcome) (body : ApproveBody) :
    List ExecCall × ApproveResponse :=
  ([⟨body.command, body.cwd.getD ws, 60000⟩],
    approveResponseFor body.toolCallId (shell ⟨body.command, body.cwd.getD ws, 60000⟩))

/-- Claim C2: every `POST /api/agent/approve` request executes the command
string taken from the request body exactly once, synchronously, with a
60-second timeout, unconditionally: the handler is a function of the body and
the ambient shell alone (it consults no pending-approval state, so any
`toolCallId`/`command` — announced in some agent round or not — is executed),
and the single issued call is exactly the body's command with `cwd ||
WORKSPACE_DIR`. -/
theorem approveEndpoint_executes_unconditionally (ws : Str) (shell : ExecCall → ExecOutcome)
    (body : ApproveBody) :
    (approveEndpoint ws shell body).1 = [⟨body.command, body.cwd.getD ws, 60000⟩] ∧
    (approveEndpoint ws shell body).2.toolCallId = body.toolCallId := by
  refine ⟨rfl, ?_⟩
  show (approveResponseFor body.toolCallId (shell ⟨body.command, body.cwd.getD ws, 60000⟩)).toolCallId
      = body.toolCallId
  cases shell ⟨body.command, body.cwd.getD ws, 60000⟩ <;> rfl

/-! ## Extension pending-edit approval (`extension.ts`)

`_editFile` in `'secure'` mode stores the proposed content in
`_pendingEdits` and reports `status: 'pending'` without touching the
filesystem; `_writePendingEdit` (the `approveEdit` message) performs the
write and removes the entry; `_rejectPendingEdit` just removes the entry.
The `langName`/`ext` display metadata of a pending edit is omitted from the
model; the `added`/`removed` line-diff counters are kept. -/

/-- The two security modes of the extension. -/
inductive SecMode
  | secure
  | full
deriving DecidableEq, Repr

/-- Model of `this._context.globalState.get('watch-ai.securityMode', 'secure')`:
the persisted value if present, otherwise the default `'secure'`. -/
def loadSecurityMode (persisted : Option SecMode) : SecMode := persisted.getD .secure

/-- A `_pendingEdits` entry. -/
structure PendingEdit where
  newContent : Str
  added : Nat
  removed : Nat
deriving DecidableEq, Repr

/-- Pending-edit table keyed by file path. -/
abbrev PendTable := List (Str × PendingEdit)

/-- Lookup in the pending-edit table (`_pendingEdits.get`). -/
def lookupPend : PendTable → Str → Option PendingEdit
  | [], _ => none
  | (p, e) :: rest, q => if p = q then some e else lookupPend rest q

/-- `_pendingEdits.set`. -/
def setPend : PendTable → Str → PendingEdit → PendTable
  | [], p, e => [(p, e)]
  | (q, d) :: rest, p, e => if q = p then (p, e) :: rest else (q, d) :: setPend rest p e

/-- `_pendingEdits.delete`. -/
def erasePend : PendTable → Str → PendTable
  | [], _ => []
  | (q, d) :: rest, p => if q = p then rest else (q, d) :: erasePend rest p

/-- Webview messages posted by the pending-edit flow. -/
inductive EditMsg
  | editPending (file : Str)
  | editApproved (file : Str)
  | editRejected (file : Str)
deriving DecidableEq, Repr

/-- State touched by the pending-edit flow: the filesystem, the pending
table, and the posted webview messages. -/
structure EditState where
  fs : Fs
  pend : PendTable
  posted : List EditMsg
deriving Repr

/-- Extension `_editFile` (`extension.ts`): in `'full'` mode write the file
immediately; in `'secure'` mode compute the line diff, store the proposed
content in `_pendingEdits`, post `edit_pending`, and answer
`status: 'pending'` — without writing the file. -/
def extEditFile (mode : SecMode) (st : EditState) (fpath codeEdit : Str) :
    EditState × Str :=
  match mode with
  | .full =>
    ({ st with fs := writeFs st.fs fpath codeEdit }, "success".toList)
  | .secure =>
    let oldLineCount := match lookupFs st.fs fpath with
      | some c => lineCount c
      | none => 0
    let newLineCount := lineCount codeEdit
    let pe : PendingEdit :=
      ⟨codeEdit, newLineCount - oldLineCount, oldLineCount - newLineCount⟩
    ({ st with pend := setPend st.pend fpath pe,
               posted := st.posted ++ [.editPending fpath] },
      "pending".toList)

/-- Extension `_writePendingEdit` (the `approveEdit` webview message): if an
entry exists for the file, write its stored content to disk, remove the
entry, and post `edit_approved`; otherwise do nothing. -/
def writePendingEdit (st : EditState) (fpath : Str) : EditState :=
  match lookupPend st.pend fpath with
  | some pe =>
    { fs := writeFs st.fs fpath pe.newContent,
      pend := erasePend st.pend fpath,
      posted := st.posted ++ [.editApproved fpath] }
  | none => st

/-- Extension `_rejectPendingEdit` (the `rejectEdit` webview message): drop the
entry and post `edit_rejected`; the filesystem is untouched. -/
def rejectPendingEdit (st : EditState) (fpath : Str) : EditState :=
  { st with pend := erasePend st.pend fpath,
            posted := st.posted ++ [.editRejected fpath] }

theorem lookupPend_setPend_self (t : PendTable) (p : Str) (e : PendingEdit) :
    lookupPend (setPend t p e) p = some e := by
  induction t with
  | nil => simp [setPend, lookupPend]
  | cons qd rest ih =>
    obtain ⟨q, d⟩ := qd
    by_cases hq : q = p
    · simp [setPend, hq, lookupPend]
    · simp [setPend, hq, lookupPend, ih]

theorem lookupPend_erase_setPend (t : PendTable) (p : Str) (e : PendingEdit)
    (hfresh : lookupPend t p = none) :
    lookupPend (erasePend (setPend t p e) p) p = none := by
  induction t with
  | nil => simp [setPend, erasePend, hfresh]
  | cons qd rest ih =>
    obtain ⟨q, d⟩ := qd
    by_cases hq : q = p
    · simp [lookupPend, hq] at hfresh
    · simp only [lookupPend, if_neg hq] at hfresh
      simp [setPend, erasePend, hq, lookupPend, ih hfresh]

/-- Claim C10: in the extension host with security mode `'secure'` (and
`'secure'` is the persisted default), an `edit_file` tool call performs no
filesystem write during the agent round — the proposed content goes into the
pending-edits table and the tool result is `'pending'`; the file is written
(with exactly the proposed content) only by a later `approveEdit`, and a
`rejectEdit` discards the pending content and leaves the file unchanged. -/
theorem extEditFile_secure_gated (st : EditState) (fpath codeEdit : Str)
    (hfresh : lookupPend st.pend fpath = none) :
    loadSecurityMode none = .secure ∧
    (extEditFile .secure st fpath codeEdit).1.fs = st.fs ∧
    (extEditFile .secure st fpath codeEdit).2 = "pending".toList ∧
    (lookupPend (extEditFile .secure st fpath codeEdit).1.pend fpath).map (·.newContent) =
      some codeEdit ∧
    lookupFs (writePendingEdit (extEditFile .secure st fpath codeEdit).1 fpath).fs fpath =
      some codeEdit ∧
    lookupPend (writePendingEdit (extEditFile .secure st fpath codeEdit).1 fpath).pend fpath =
      none ∧
    (rejectPendingEdit (extEditFile .secure st fpath codeEdit).1 fpath).fs = st.fs ∧
    lookupPend (rejectPendingEdit (extEditFile .secure st fpath codeEdit).1 fpath).pend fpath =
      none := by
  refine ⟨rfl, rfl, rfl, ?_, ?_, ?_, rfl, ?_⟩
  · simp [extEditFile, lookupPend_setPend_self]
  · simp [extEditFile, writePendingEdit, lookupPend_setPend_self, lookupFs_writeFs_self]
  · simp [extEditFile, writePendingEdit, lookupPend_setPend_self,
      lookupPend_erase_setPend _ _ _ hfresh]
  · simp [extEditFile, rejectPendingEdit, lookupPend_erase_setPend _ _ _ hfresh]

/-- Witness for C10 at a concrete input: one file `a.js`, a secure-mode edit
proposing new content `new`; nothing is written until approval, rejection
leaves the filesystem as it was. -/
theorem extEditFile_secure_gated_witness :
    lookupPend (⟨[("a.js".toList, "old".toList)], [], []⟩ : EditState).pend "a.js".toList = none ∧
    (loadSecurityMode none = .secure ∧
      (extEditFile .secure ⟨[("a.js".toList, "old".toList)], [], []⟩ "a.js".toList "new".toList).1.fs =
        (⟨[("a.js".toList, "old".toList)], [], []⟩ : EditState).fs ∧
      (extEditFile .secure ⟨[("a.js".toList, "old".toList)], [], []⟩ "a.js".toList "new".toList).2 =
        "pending".toList ∧
      (lookupPend (extEditFile .secure ⟨[("a.js".toList, "old".toList)], [], []⟩ "a.js".toList "new".toList).1.pend
          "a.js".toList).map (·.newContent) = some "new".toList ∧
      lookupFs (writePendingEdit
          (extEditFile .secure ⟨[("a.js".toList, "old".toList)], [], []⟩ "a.js".toList "new".toList).1
          "a.js".toList).fs "a.js".toList = some "new".toList ∧
      lookupPend (writePendingEdit
          (extEditFile .secure ⟨[("a.js".toList, "old".toList)], [], []⟩ "a.js".toList "new".toList).1
          "a.js".toList).pend "a.js".toList = none ∧
      (rejectPendingEdit
          (extEditFile .secure ⟨[("a.js".toList, "old".toList)], [], []⟩ "a.js".toList "new".toList).1
          "a.js".toList).fs = (⟨[("a.js".toList, "old".toList)], [], []⟩ : EditState).fs ∧
      lookupPend (rejectPendingEdit
          (extEditFile .secure ⟨[("a.js".toList, "old".toList)], [], []⟩ "a.js".toList "new".toList).1
          "a.js".toList).pend "a.js".toList = none) :=
  ⟨rfl, extEditFile_secure_gated ⟨[("a.js".toList, "old".toList)], [], []⟩
    "a.js".toList "new".toList rfl⟩

/-! ## SSE stream decoder (`_runAgentLoop`, `extension.ts`)

The decoder keeps a carry-over `buffer`, appends each incoming chunk, splits
on `'\n'`, holds back the last (possibly incomplete) line, and processes each
complete line: trim, skip blank or non-`data: ` lines, strip the prefix,
stop at the `[DONE]` sentinel (a `break` out of the per-chunk line loop),
otherwise `JSON.parse` and fold the event into the running content and the
per-index tool-call accumulators.  `JSON.parse` plus the
`data.choices?.[0]?.delta` shape extraction is the opaque parameter `parse`
(`none` = the line is silently dropped). -/

/-- One entry of a `delta.tool_calls` array: `index`, and optional `id`,
`function.name` fragment and `function.arguments` fragment. -/
structure ToolCallDelta where
  index : Nat
  id : Option Str
  name : Option Str
  args : Option Str
deriving DecidableEq, Repr

/-- What one parsed stream event contributes: an optional content delta and a
(possibly empty) list of tool-call deltas. -/
structure ParsedData where
  content : Option Str
  toolCalls : List ToolCallDelta
deriving DecidableEq, Repr

/-- One accumulated tool call (`toolCalls[index]` in the source). -/
structure AccCall where
  id : Option Str
  name : Str
  args : Str
deriving DecidableEq, Repr

/-- Events forwarded upstream (`postMessage`) while decoding: content deltas
and the running tool-call name announcements. -/
inductive OutEvent
  | contentDelta (s : Str)
  | toolCallName (s : Str)
deriving DecidableEq, Repr

/-- The part of the decoder state the per-line loop acts on: accumulated
assistant text, sparse tool-call array, and the emitted events in order.
(The carry-over buffer is managed per chunk, outside the line loop, exactly
as in the source.) -/
structure DecCore where
  content : Str
  calls : List (Option AccCall)
  events : List OutEvent
deriving DecidableEq, Repr

/-- Full decoder state: carry-over buffer plus the line-loop state. -/
structure DecoderState where
  buffer : Str
  core : DecCore
deriving DecidableEq, Repr

/-- JavaScript array assignment `arr[i] = v` on a possibly sparse array:
missing slots up to `i` are filled with `none`. -/
def setSlot : List (Option AccCall) → Nat → AccCall → List (Option AccCall)
  | [], 0, v => [some v]
  | [], i + 1, v => none :: setSlot [] i v
  | _ :: xs, 0, v => some v :: xs
  | x :: xs, i + 1, v => x :: setSlot xs i v

/-- JavaScript truthiness of an optional string (`undefined` and `''` are
falsy). -/
def isTruthy : Option Str → Bool
  | some s => !s.isEmpty
  | none => false

/-- Fold one `delta.tool_calls` entry into the state, exactly as the source:
initialise the slot if absent (with the delta's `id`), overwrite `id` when
truthy, append the `name` fragment (posting a `tool_call` event with the
accumulated name), append the `arguments` fragment. -/
def applyToolDelta (st : DecCore) (tc : ToolCallDelta) : DecCore :=
  let cur0 : AccCall :=
    match st.calls.getD tc.index none with
    | some c => c
    | none => ⟨tc.id, [], []⟩
  let cur1 := if isTruthy tc.id then { cur0 with id := tc.id } else cur0
  let cur2 :=
    if isTruthy tc.name then { cur1 with name := cur1.name ++ tc.name.getD [] } else cur1
  let evs : List OutEvent :=
    if isTruthy tc.name then [.toolCallName (cur1.name ++ tc.name.getD [])] else []
  let cur3 :=
    if isTruthy tc.args then { cur2 with args := cur2.args ++ tc.args.getD [] } else cur2
  { st with calls := setSlot st.calls tc.index cur3, events := st.events ++ evs }

/-- Fold one parsed stream event into the state (`delta.content`, then each
`delta.tool_calls` entry). -/
def applyData (st : DecCore) (pd : ParsedData) : DecCore :=
  let st1 :=
    if isTruthy pd.content then
      { st with content := st.content ++ pd.content.getD [],
                events := st.events ++ [.contentDelta (pd.content.getD [])] }
    else st
  pd.toolCalls.foldl applyToolDelta st1

/-- The `data: ` line marker. -/
def sseMarker : Str := "data: ".toList

/-- The `[DONE]` sentinel. -/
def sseDoneTag : Str := "[DONE]".toList

/-- How the per-line loop treats one complete line. -/
inductive LineClass
  | skip
  | sentinel
  | payload (d : ParsedData)
deriving DecidableEq, Repr

/-- Classification of one complete line, exactly following the source:
`trim`, skip blank / non-`data: ` lines, strip the marker (the first
occurrence of `data: ` is the prefix), `trim` again, `[DONE]` breaks, a
parse failure is silently dropped. -/
def classifyLine (parse : Str → Option ParsedData) (line : Str) : LineClass :=
  let clean := jsTrim line
  if clean.isEmpty then .skip
  else if !(sseMarker.isPrefixOf clean) then .skip
  else
    let ds := jsTrim (clean.drop sseMarker.length)
    if ds = sseDoneTag then .sentinel
    else
      match parse ds with
      | none => .skip
      | some pd => .payload pd

/-- The per-chunk line loop (`for (const line of lines)`), with the `[DONE]`
`break`. -/
def runLines (parse : Str → Option ParsedData) (st : DecCore) : List Str → DecCore
  | [] => st
  | l :: ls =>
    match classifyLine parse l with
    | .skip => runLines parse st ls
    | .sentinel => st
    | .payload d => runLines parse (applyData st d) ls

/-- `buffer.split('\n')`: split a string into its newline-separated lines
(the last element is the trailing, possibly incomplete, line). -/
def splitNl : Str → List Str
  | [] => [[]]
  | c :: cs =>
    if c = '\n' then [] :: splitNl cs
    else
      match splitNl cs with
      | [] => [[c]]
      | h :: t => (c :: h) :: t

/-- All parts except the last (`lines` after `lines.pop()`). -/
def initParts : List Str → List Str
  | [] => []
  | [_] => []
  | x :: xs => x :: initParts xs

/-- The last part (`lines.pop()`), `[]` for an empty list. -/
def lastPart : List Str → Str
  | [] => []
  | [x] => x
  | _ :: xs => lastPart xs

/-- Prepend a carry-over string onto the first part of a split. -/
def glue (x : Str) : List Str → List Str
  | [] => [x]
  | h :: t => (x ++ h) :: t

/-- Process one incoming chunk: append to the buffer, split on newlines, hold
the last part back as the new buffer, and run the line loop on the complete
lines. -/
def feedChunk (parse : Str → Option ParsedData) (st : DecoderState) (chunk : Str) : DecoderState :=
  ⟨lastPart (splitNl (st.buffer ++ chunk)),
    runLines parse st.core (initParts (splitNl (st.buffer ++ chunk)))⟩

/-- Run the decoder over a sequence of chunks. -/
def feedAll (parse : Str → Option ParsedData) (st : DecoderState) (chunks : List Str) : DecoderState :=
  chunks.foldl (feedChunk parse) st

/-- Decode a stream delivered as the given chunks, from the initial state. -/
def decodeStream (parse : Str → Option ParsedData) (chunks : List Str) : DecoderState :=
  feedAll parse ⟨[], ⟨[], [], []⟩⟩ chunks

/-- A line that changes no decoder state (blank, non-`data: `, unparseable,
or the sentinel itself). -/
def lineInert (parse : Str → Option ParsedData) (l : Str) : Bool :=
  match classifyLine parse l with
  | .payload _ => false
  | _ => true

/-- Well-formedness of the complete lines of a stream: after any `[DONE]`
line, every later line is inert.  A complete SSE stream in the sense of the
specification — terminated by the `data: [DONE]` sentinel line — satisfies
this (there is nothing after the sentinel). -/
def noDataAfterDone (parse : Str → Option ParsedData) : List Str → Bool
  | [] => true
  | l :: ls =>
    (match classifyLine parse l with
     | .sentinel => ls.all (lineInert parse)
     | _ => true) && noDataAfterDone parse ls

/-! ### Split-invariance of the decoder -/

theorem splitNl_ne_nil : ∀ s : Str, splitNl s ≠ [] := by
  intro s
  cases s with
  | nil => simp [splitNl]
  | cons c cs =>
    simp only [splitNl]
    split
    · simp
    · cases h : splitNl cs <;> simp

theorem lastPart_cons_of_ne_nil (x : Str) (t : List Str) (h : t ≠ []) :
    lastPart (x :: t) = lastPart t := by
  cases t with
  | nil => exact absurd rfl h
  | cons y ys => rfl

theorem initParts_cons_of_ne_nil (x : Str) (t : List Str) (h : t ≠ []) :
    initParts (x :: t) = x :: initParts t := by
  cases t with
  | nil => exact absurd rfl h
  | cons y ys => rfl

theorem lastPart_append (A B : List Str) (h : B ≠ []) :
    lastPart (A ++ B) = lastPart B := by
  induction A with
  | nil => rfl
  | cons x A' ih =>
    have hne : A' ++ B ≠ [] := by
      intro hc
      rcases List.append_eq_nil.mp hc with ⟨-, h2⟩
      exact h h2
    rw [List.cons_append, lastPart_cons_of_ne_nil x (A' ++ B) hne, ih]

theorem initParts_append (A B : List Str) (h : B ≠ []) :
    initParts (A ++ B) = A ++ initParts B := by
  induction A with
  | nil => rfl
  | cons x A' ih =>
    have hne : A' ++ B ≠ [] := by
      intro hc
      rcases List.append_eq_nil.mp hc with ⟨-, h2⟩
      exact h h2
    rw [List.cons_append, initParts_cons_of_ne_nil x (A' ++ B) hne, ih, List.cons_append]

theorem splitNl_cons_newline (cs : Str) : splitNl ('\n' :: cs) = [] :: splitNl cs := by
  simp [splitNl]

theorem splitNl_cons_other (c : Char) (cs : Str) (hc : ¬ c = '\n') :
    splitNl (c :: cs) = glue [c] (splitNl cs) := by
  cases h : splitNl cs with
  | nil => exact absurd h (splitNl_ne_nil cs)
  | cons hd t => simp [splitNl, hc, h, glue]

theorem glue_initParts_glue (c : Str) (r sb : List Str) (hr : r ≠ []) (hsb : sb ≠ []) :
    glue c (initParts r ++ glue (lastPart r) sb) =
      initParts (glue c r) ++ glue (lastPart (glue c r)) sb := by
  cases r with
  | nil => exact absurd rfl hr
  | cons h t =>
    cases t with
    | nil =>
      cases sb with
      | nil => exact absurd rfl hsb
      | cons hb tb =>
        simp [initParts, lastPart, glue, List.append_assoc]
    | cons t0 ts =>
      have htne : (t0 :: ts : List Str) ≠ [] := by simp
      rw [show glue c (h :: t0 :: ts) = (c ++ h) :: t0 :: ts from rfl]
      rw [initParts_cons_of_ne_nil h _ htne, initParts_cons_of_ne_nil (c ++ h) _ htne,
        lastPart_cons_of_ne_nil h _ htne, lastPart_cons_of_ne_nil (c ++ h) _ htne]
      rw [List.cons_append, List.cons_append]
      rfl

theorem splitNl_append (a b : Str) :
    splitNl (a ++ b) = initParts (splitNl a) ++ glue (lastPart (splitNl a)) (splitNl b) := by
  induction a with
  | nil =>
    cases h : splitNl b with
    | nil => exact absurd h (splitNl_ne_nil b)
    | cons hb tb => simp [splitNl, initParts, lastPart, glue, h]
  | cons c a' ih =>
    by_cases hc : c = '\n'
    · subst hc
      have hne := splitNl_ne_nil a'
      rw [List.cons_append, splitNl_cons_newline, splitNl_cons_newline,
        initParts_cons_of_ne_nil [] _ hne, lastPart_cons_of_ne_nil [] _ hne, ih,
        List.cons_append]
    · rw [List.cons_append, splitNl_cons_other c _ hc, splitNl_cons_other c _ hc, ih]
      exact glue_initParts_glue [c] (splitNl a') (splitNl b) (splitNl_ne_nil a') (splitNl_ne_nil b)

theorem splitNl_of_no_newline (x : Str) (h : '\n' ∉ x) : splitNl x = [x] := by
  induction x with
  | nil => rfl
  | cons c cs ih =>
    have hc : ¬ c = '\n' := fun hcc => h (by simp [hcc])
    have hcs : '\n' ∉ cs := fun hm => h (by simp [hm])
    rw [splitNl_cons_other c cs hc, ih hcs]
    rfl

theorem no_newline_lastPart_splitNl (s : Str) : '\n' ∉ lastPart (splitNl s) := by
  induction s with
  | nil => simp [splitNl, lastPart]
  | cons c cs ih =>
    by_cases hc : c = '\n'
    · subst hc
      rw [splitNl_cons_newline, lastPart_cons_of_ne_nil [] _ (splitNl_ne_nil cs)]
      exact ih
    · rw [splitNl_cons_other c cs hc]
      cases hr : splitNl cs with
      | nil => exact absurd hr (splitNl_ne_nil cs)
      | cons h t =>
        rw [hr] at ih
        cases t with
        | nil =>
          simp only [glue, lastPart]
          simp only [lastPart] at ih
          intro hm
          rcases List.mem_append.mp hm with hm | hm
          · simp at hm
            exact hc hm.symm
          · exact ih hm
        | cons t0 ts =>
          simp only [glue]
          rw [lastPart_cons_of_ne_nil _ _ (by simp : (t0 :: ts : List Str) ≠ [])]
          rw [lastPart_cons_of_ne_nil _ _ (by simp : (t0 :: ts : List Str) ≠ [])] at ih
          exact ih

theorem runLines_inert (parse : Str → Option ParsedData) (L : List Str)
    (h : L.all (lineInert parse) = true) (st : DecCore) :
    runLines parse st L = st := by
  induction L generalizing st with
  | nil => rfl
  | cons l ls ih =>
    simp only [List.all_cons, Bool.and_eq_true] at h
    simp only [runLines]
    cases hc : classifyLine parse l with
    | skip => exact ih h.2 st
    | sentinel => rfl
    | payload d =>
      exfalso
      have := h.1
      simp [lineInert, hc] at this

theorem noDataAfterDone_right (parse : Str → Option ParsedData) (A : List Str) :
    ∀ B, noDataAfterDone parse (A ++ B) = true → noDataAfterDone parse B = true := by
  induction A with
  | nil => intro B h; exact h
  | cons l A' ih =>
    intro B h
    simp only [List.cons_append, noDataAfterDone, Bool.and_eq_true] at h
    exact ih B h.2

theorem runLines_append (parse : Str → Option ParsedData) (A : List Str) :
    ∀ (B : List Str) (st : DecCore), noDataAfterDone parse (A ++ B) = true →
      runLines parse st (A ++ B) = runLines parse (runLines parse st A) B := by
  induction A with
  | nil => intro B st _; rfl
  | cons l A' ih =>
    intro B st h
    simp only [List.cons_append, noDataAfterDone, Bool.and_eq_true] at h
    simp only [List.cons_append, runLines]
    cases hc : classifyLine parse l with
    | skip => exact ih B st h.2
    | payload d => exact ih B (applyData st d) h.2
    | sentinel =>
      have hall : (A' ++ B).all (lineInert parse) = true := by
        have := h.1
        simpa [hc] using this
      have hB : B.all (lineInert parse) = true := by
        rw [List.all_append] at hall
        exact (Bool.and_eq_true_iff.mp hall).2
      exact (runLines_inert parse B hB st).symm

theorem splitNl_buffer_decompose (buf a b : Str) :
    splitNl (buf ++ (a ++ b)) =
      initParts (splitNl (buf ++ a)) ++ splitNl (lastPart (splitNl (buf ++ a)) ++ b) := by
  have h1 : splitNl (buf ++ (a ++ b)) = splitNl ((buf ++ a) ++ b) := by
    rw [List.append_assoc]
  have h2 := splitNl_append (buf ++ a) b
  have h3 : splitNl (lastPart (splitNl (buf ++ a)) ++ b) =
      glue (lastPart (splitNl (buf ++ a))) (splitNl b) := by
    have hnl := no_newline_lastPart_splitNl (buf ++ a)
    rw [splitNl_append (lastPart (splitNl (buf ++ a))) b,
      splitNl_of_no_newline _ hnl]
    rfl
  rw [h1, h2, h3]

theorem feedChunk_merge (parse : Str → Option ParsedData) (st : DecoderState) (a b : Str)
    (h : noDataAfterDone parse (initParts (splitNl (st.buffer ++ (a ++ b)))) = true) :
    feedChunk parse (feedChunk parse st a) b = feedChunk parse st (a ++ b) := by
  have hdec := splitNl_buffer_decompose st.buffer a b
  have hQne : splitNl (lastPart (splitNl (st.buffer ++ a)) ++ b) ≠ [] :=
    splitNl_ne_nil _
  have hlast : lastPart (splitNl (st.buffer ++ (a ++ b))) =
      lastPart (splitNl (lastPart (splitNl (st.buffer ++ a)) ++ b)) := by
    rw [hdec]; exact lastPart_append _ _ hQne
  have hinit : initParts (splitNl (st.buffer ++ (a ++ b))) =
      initParts (splitNl (st.buffer ++ a)) ++
        initParts (splitNl (lastPart (splitNl (st.buffer ++ a)) ++ b)) := by
    rw [hdec]; exact initParts_append _ _ hQne
  have hnd : noDataAfterDone parse
      (initParts (splitNl (st.buffer ++ a)) ++
        initParts (splitNl (lastPart (splitNl (st.buffer ++ a)) ++ b))) = true := by
    rw [← hinit]; exact h
  show (⟨lastPart (splitNl ((feedChunk parse st a).buffer ++ b)),
      runLines parse (feedChunk parse st a).core
        (initParts (splitNl ((feedChunk parse st a).buffer ++ b)))⟩ : DecoderState) =
    ⟨lastPart (splitNl (st.buffer ++ (a ++ b))),
      runLines parse st.core (initParts (splitNl (st.buffer ++ (a ++ b))))⟩
  have hbufeq : (feedChunk parse st a).buffer = lastPart (splitNl (st.buffer ++ a)) := rfl
  have hcoreeq : (feedChunk parse st a).core =
      runLines parse st.core (initParts (splitNl (st.buffer ++ a))) := rfl
  rw [hbufeq, hcoreeq, hlast, hinit]
  rw [runLines_append parse _ _ _ hnd]

theorem feedAll_eq_single (parse : Str → Option ParsedData) :
    ∀ (chunks : List Str) (st : DecoderState), '\n' ∉ st.buffer →
      noDataAfterDone parse (initParts (splitNl (st.buffer ++ chunks.flatten))) = true →
      feedAll parse st chunks = feedChunk parse st chunks.flatten := by
  intro chunks
  induction chunks with
  | nil =>
    intro st hbuf _
    show st = feedChunk parse st []
    show st = ⟨lastPart (splitNl (st.buffer ++ [])),
      runLines parse st.core (initParts (splitNl (st.buffer ++ [])))⟩
    rw [List.append_nil, splitNl_of_no_newline st.buffer hbuf]
    rfl
  | cons c cs ih =>
    intro st hbuf h
    have hjoin : (c :: cs).flatten = c ++ cs.flatten := rfl
    rw [hjoin] at h
    have hdec := splitNl_buffer_decompose st.buffer c cs.flatten
    have hQne : splitNl (lastPart (splitNl (st.buffer ++ c)) ++ cs.flatten) ≠ [] :=
      splitNl_ne_nil _
    have hinit : initParts (splitNl (st.buffer ++ (c ++ cs.flatten))) =
        initParts (splitNl (st.buffer ++ c)) ++
          initParts (splitNl (lastPart (splitNl (st.buffer ++ c)) ++ cs.flatten)) := by
      rw [hdec]; exact initParts_append _ _ hQne
    have hsub : noDataAfterDone parse
        (initParts (splitNl (lastPart (splitNl (st.buffer ++ c)) ++ cs.flatten))) = true := by
      apply noDataAfterDone_right parse (initParts (splitNl (st.buffer ++ c)))
      rw [← hinit]; exact h
    have hbuf1 : '\n' ∉ (feedChunk parse st c).buffer :=
      no_newline_lastPart_splitNl (st.buffer ++ c)
    have hstep : feedAll parse st (c :: cs) = feedAll parse (feedChunk parse st c) cs := rfl
    rw [hstep, ih (feedChunk parse st c) hbuf1 (by exact hsub), hjoin]
    exact feedChunk_merge parse st c cs.flatten h

/-- Claim C8: split-invariance of the stream decoder.  For every complete SSE
text stream (formally: a stream whose complete lines contain no payload line
after a `data: [DONE]` sentinel line — in particular any stream terminated by
the sentinel) and every way of cutting it into chunks at arbitrary character
boundaries, decoding the chunk sequence produces exactly the same decoder
state — the same sequence of emitted content deltas and tool-call name
events, the same accumulated content, and the same final tool-call set (ids,
names, argument strings per index) — as decoding the stream delivered as one
single chunk.  Quantified over every `JSON.parse`/shape-extraction behaviour
`parse`. -/
theorem decoder_split_invariance (parse : Str → Option ParsedData) (chunks : List Str)
    (h : noDataAfterDone parse (initParts (splitNl chunks.flatten)) = true) :
    decodeStream parse chunks = decodeStream parse [chunks.flatten] := by
  have hsingle : decodeStream parse [chunks.flatten] =
      feedChunk parse ⟨[], ⟨[], [], []⟩⟩ chunks.flatten := rfl
  rw [hsingle]
  exact feedAll_eq_single parse chunks ⟨[], ⟨[], [], []⟩⟩ (by simp) (by simpa using h)

/-- A concrete `JSON.parse`-and-extract behaviour for the C8 witness: the
line body `x` parses to a content delta `hi` plus one tool-call delta at
index 0; everything else fails to parse. -/
def parseDemo : Str → Option ParsedData := fun s =>
  if s = "x".toList then
    some ⟨some "hi".toList, [⟨0, some "id1".toList, some "rc".toList, some "arg".toList⟩]⟩
  else none

/-- The C8 witness stream, cut mid-line: `data: x\ndata: [DONE]\n` as two
chunks. -/
def chunksDemo : List Str := ["data: x\nda".toList, "ta: [DONE]\n".toList]

/-- Witness for C8 at a concrete input: a two-chunk split (cutting the
`data: [DONE]` line in half) decodes identically to the unsplit stream. -/
theorem decoder_split_invariance_witness :
    noDataAfterDone parseDemo (initParts (splitNl chunksDemo.flatten)) = true ∧
    decodeStream parseDemo chunksDemo = decodeStream parseDemo [chunksDemo.flatten] :=
  ⟨by decide, decoder_split_invariance parseDemo chunksDemo (by decide)⟩

/-! ## Server agent round and loop (`app.post('/api/agent/chat')`, `server/index.js`)

One round: stream the model response (abstracted to its accumulated result, a
reply string plus a possibly sparse array of accumulated tool calls), append
the assistant message, filter valid calls, announce them (this `JSON.parse`s
every argument string — a parse failure throws to the endpoint's `catch`,
which emits an `error` event and ends the stream), then execute the calls in
order with the `runCommand` approval `break`.  The tool handlers themselves
are abstracted as a function parameter; the round records which handlers were
invoked. -/

/-- One accumulated raw tool call of a round (after stream accumulation). -/
structure RawCall where
  id : Str
  name : Str
  args : Str
deriving DecidableEq, Repr

/-- The parsed JSON argument object, restricted to the fields the round logic
itself reads (`args.command`, `args.cwd`); tool handlers consume the object
through the abstract handler parameter. -/
structure SrvArgs where
  command : Option Str
  cwd : Option Str
deriving DecidableEq, Repr

/-- Result object returned by a server tool handler. -/
structure HandlerResult where
  success : Bool
  message : Str
deriving DecidableEq, Repr

/-- SSE events the chat endpoint writes. -/
inductive SrvEvent
  | contentEv (delta : Str)
  | toolCallEv (calls : List (Str × Str))
  | approvalRequired (toolCallId : Str) (command : Option Str) (cwd : Str)
  | stepEv (tool : Str) (success : Bool) (message : Str)
  | doneEv (toolCalls : List (Str × Str))
  | errorEv
deriving DecidableEq, Repr

/-- Chat history messages the round appends. -/
inductive SrvMsg
  | assistantText (content : Str)
  | assistantCalls (calls : List RawCall)
  | toolMsg (toolCallId : Str) (result : HandlerResult)
deriving DecidableEq, Repr

/-- JavaScript `a || b` for an optional string (`undefined` and `''` fall
through to the default). -/
def jsOr (o : Option Str) (d : Str) : Str :=
  match o with
  | some s => if s.isEmpty then d else s
  | none => d

/-- `'runCommand'` -/
def runCommandName : Str := "runCommand".toList

/-- `'pending_approval'` / `'success'` / `'error'` status strings of the
session-stats tool-call log. -/
def statusPending : Str := "pending_approval".toList

def statusSuccess : Str := "success".toList

def statusError : Str := "error".toList

/-- The names bound in `toolHandlers` (dispatch is `toolHandlers[toolName]`;
an unknown name yields `undefined` and the call is silently skipped). -/
def srvKnownTools : List Str :=
  ["readFile", "writeFile", "editFile", "deleteFile", "listFiles",
    "searchInFiles", "runCommand"].map String.toList

/-- `JSON.parse(tc.function.arguments || '{}')`: the empty accumulated string
falls back to the empty object; otherwise the opaque `parse`. -/
def parseArgs (parse : Str → Option SrvArgs) (s : Str) : Option SrvArgs :=
  if s.isEmpty then some ⟨none, none⟩ else parse s

/-- Parse the argument strings of all valid calls (the announce `res.write`
does this in one `map`; the first failure throws). -/
def parseAllArgs (parse : Str → Option SrvArgs) : List RawCall → Option (List SrvArgs)
  | [] => some []
  | tc :: rest =>
    match parseArgs parse tc.args, parseAllArgs parse rest with
    | some a, some as => some (a :: as)
    | _, _ => none

/-- `toolCalls.filter(tc => tc && tc.id && tc.function.name)`: drop array
holes and calls with empty id or name. -/
def validCallsOf (tcs : List (Option RawCall)) : List RawCall :=
  (tcs.filterMap id).filter (fun tc => !tc.id.isEmpty && !tc.name.isEmpty)

/-- Accumulated effects of one round. -/
structure RoundOut where
  msgs : List SrvMsg
  events : List SrvEvent
  execs : List (Str × SrvArgs)
  stats : List (Str × Str)
  isDone : Bool
deriving DecidableEq, Repr

/-- The `for (const toolCall of validCalls)` loop: a `runCommand` call emits
`approval_required`, logs `pending_approval`, sets `isDone` and `break`s;
any other known tool is executed (result recorded as a `step` event, a
session-stats entry and a tool message); an unknown tool is skipped. -/
def execCalls (runH : Str → SrvArgs → HandlerResult) (ws : Str) :
    RoundOut → List (RawCall × SrvArgs) → RoundOut
  | acc, [] => acc
  | acc, (tc, args) :: rest =>
    if tc.name = runCommandName then
      { acc with
        events := acc.events ++ [.approvalRequired tc.id args.command (jsOr args.cwd ws)],
        stats := acc.stats ++ [(tc.name, statusPending)],
        isDone := true }
    else if srvKnownTools.contains tc.name then
      execCalls runH ws
        { acc with
          msgs := acc.msgs ++ [.toolMsg tc.id (runH tc.name args)],
          events := acc.events ++
            [.stepEv tc.name (runH tc.name args).success (runH tc.name args).message],
          execs := acc.execs ++ [(tc.name, args)],
          stats := acc.stats ++
            [(tc.name, if (runH tc.name args).success then statusSuccess else statusError)] }
        rest
    else
      execCalls runH ws acc rest

/-- One server agent round, given the accumulated stream result `(reply,
tcs)`.  `.error ()` is a thrown `JSON.parse` — the endpoint's `catch` takes
over (error event, stream closed). -/
def serverRound (parse : Str → Option SrvArgs) (runH : Str → SrvArgs → HandlerResult)
    (ws : Str) (msgs : List SrvMsg) (reply : Str) (tcs : List (Option RawCall)) :
    Except Unit RoundOut :=
  let msgs1 := if reply.isEmpty then msgs else msgs ++ [.assistantText reply]
  if tcs.isEmpty then
    .ok ⟨msgs1, [], [], [], true⟩
  else
    let valid := validCallsOf tcs
    if valid.isEmpty then
      .ok ⟨msgs1, [], [], [], false⟩
    else
      match parseAllArgs parse valid with
      | none => .error ()
      | some argsList =>
        .ok (execCalls runH ws
          ⟨msgs1 ++ [.assistantCalls valid],
            [.toolCallEv (valid.map fun tc => (tc.id, tc.name))], [], [], false⟩
          (valid.zip argsList))

/-- The `while (!isDone && loopCount < maxLoops)` loop, with the remaining
round budget as fuel; afterwards the endpoint writes the final `done` event
carrying the session stats.  Returns the number of model requests issued and
the full event stream. -/
def serverLoopAux (parse : Str → Option SrvArgs) (runH : Str → SrvArgs → HandlerResult)
    (ws : Str) (rounds : Nat → Str × List (Option RawCall)) :
    Nat → Nat → List SrvMsg → List SrvEvent → List (Str × Str) → Nat × List SrvEvent
  | 0, count, _, events, stats => (count, events ++ [.doneEv stats])
  | fuel + 1, count, msgs, events, stats =>
    match serverRound parse runH ws msgs (rounds count).1 (rounds count).2 with
    | .error _ => (count + 1, events ++ [.errorEv])
    | .ok r =>
      if r.isDone then (count + 1, events ++ r.events ++ [.doneEv (stats ++ r.stats)])
      else serverLoopAux parse runH ws rounds fuel (count + 1) r.msgs
        (events ++ r.events) (stats ++ r.stats)

/-- The `/api/agent/chat` endpoint: round cap `maxLoops = 15`, initial
history `msgs0`, model behaviour `rounds` (the accumulated stream result of
the `n`-th request). -/
def serverChat (parse : Str → Option SrvArgs) (runH : Str → SrvArgs → HandlerResult)
    (ws : Str) (msgs0 : List SrvMsg) (rounds : Nat → Str × List (Option RawCall)) :
    Nat × List SrvEvent :=
  serverLoopAux parse runH ws rounds 15 0 msgs0 [] []

/-- A round after which the loop keeps going: the model produced at least one
tool call, and every valid call has a non-`runCommand` name and parseable
arguments. -/
def roundContinues (parse : Str → Option SrvArgs) (reply : Str)
    (tcs : List (Option RawCall)) : Bool :=
  !tcs.isEmpty &&
    (validCallsOf tcs).all
      (fun tc => !(tc.name == runCommandName) && (parseArgs parse tc.args).isSome)

theorem parseAllArgs_isSome (parse : Str → Option SrvArgs) :
    ∀ (l : List RawCall), (∀ tc ∈ l, (parseArgs parse tc.args).isSome = true) →
      ∃ as, parseAllArgs parse l = some as := by
  intro l
  induction l with
  | nil => intro _; exact ⟨[], rfl⟩
  | cons tc rest ih =>
    intro h
    have h1 := h tc (by simp)
    obtain ⟨a, ha⟩ := Option.isSome_iff_exists.mp h1
    obtain ⟨as, has⟩ := ih (fun x hx => h x (by simp [hx]))
    exact ⟨a :: as, by simp [parseAllArgs, ha, has]⟩

theorem execCalls_isDone_false (runH : Str → SrvArgs → HandlerResult) (ws : Str) :
    ∀ (pairs : List (RawCall × SrvArgs)) (acc : RoundOut), acc.isDone = false →
      (∀ p ∈ pairs, ¬ p.1.name = runCommandName) →
      (execCalls runH ws acc pairs).isDone = false := by
  intro pairs
  induction pairs with
  | nil => intro acc hacc _; exact hacc
  | cons p rest ih =>
    intro acc hacc h
    obtain ⟨tc, args⟩ := p
    have hname : ¬ tc.name = runCommandName := h (tc, args) (by simp)
    simp only [execCalls, if_neg hname]
    split
    · exact ih _ hacc (fun q hq => h q (by simp [hq]))
    · exact ih acc hacc (fun q hq => h q (by simp [hq]))

theorem roundContinues_ok (parse : Str → Option SrvArgs) (runH : Str → SrvArgs → HandlerResult)
    (ws : Str) (msgs : List SrvMsg) (reply : Str) (tcs : List (Option RawCall))
    (h : roundContinues parse reply tcs = true) :
    ∃ r, serverRound parse runH ws msgs reply tcs = .ok r ∧ r.isDone = false := by
  simp only [roundContinues, Bool.and_eq_true] at h
  obtain ⟨hne, hall⟩ := h
  rw [List.all_eq_true] at hall
  simp only [serverRound]
  rw [if_neg (by simp [List.isEmpty_iff] at hne ⊢; exact hne)]
  by_cases hv : validCallsOf tcs = []
  · rw [if_pos (by simp [hv])]
    exact ⟨_, rfl, rfl⟩
  · rw [if_neg (by simp [List.isEmpty_iff]; exact hv)]
    obtain ⟨as, has⟩ := parseAllArgs_isSome parse (validCallsOf tcs)
      (fun tc htc => (Bool.and_eq_true _ _ |>.mp (hall tc htc)).2)
    rw [has]
    refine ⟨_, rfl, ?_⟩
    apply execCalls_isDone_false runH ws _ _ rfl
    intro p hp heq
    have hmem := (List.of_mem_zip hp).1
    have := (Bool.and_eq_true _ _ |>.mp (hall p.1 hmem)).1
    simp only [Bool.not_eq_true'] at this
    rw [heq] at this
    simp at this

theorem serverLoopAux_spec (parse : Str → Option SrvArgs) (runH : Str → SrvArgs → HandlerResult)
    (ws : Str) (rounds : Nat → Str × List (Option RawCall))
    (h : ∀ n, roundContinues parse (rounds n).1 (rounds n).2 = true) :
    ∀ (fuel count : Nat) (msgs : List SrvMsg) (events : List SrvEvent) (stats : List (Str × Str)),
      ∃ evs stats', serverLoopAux parse runH ws rounds fuel count msgs events stats =
        (count + fuel, events ++ evs ++ [.doneEv stats']) := by
  intro fuel
  induction fuel with
  | zero =>
    intro count msgs events stats
    exact ⟨[], stats, by simp [serverLoopAux]⟩
  | succ fuel ih =>
    intro count msgs events stats
    obtain ⟨r, hr, hdone⟩ := roundContinues_ok parse runH ws msgs (rounds count).1
      (rounds count).2 (h count)
    obtain ⟨evs, stats', hrec⟩ := ih (count + 1) r.msgs (events ++ r.events) (stats ++ r.stats)
    refine ⟨r.events ++ evs, stats', ?_⟩
    simp only [serverLoopAux, hr, hdone, Bool.false_eq_true, if_false]
    rw [hrec]
    have hc : count + 1 + fuel = count + (fuel + 1) := by omega
    rw [hc]
    simp [List.append_assoc]

/-! ## Extension tool batch, terminal command and loop (`extension.ts`)

`_runAgentLoop` executes the round's tool calls with
`Promise.all(assistantMessage.tool_calls.map(...))`: every call in the batch
is started (including `run_terminal_cmd` and everything positioned after
it); a call whose accumulated arguments fail to `JSON.parse` yields the
per-call error message `Argümanlar geçersiz JSON.` and the batch continues.
The argument type `A` and result type `B` of the host tool implementations
are abstract, as is `run`, the dispatch switch. -/

/-- Content of one extension tool message: the per-call invalid-JSON error, or
the serialized result of the dispatched tool. -/
inductive ExtToolContent (B : Type)
  | invalidArgs
  | result (r : B)
deriving DecidableEq, Repr

/-- One `role: 'tool'` message the extension pushes per batch element. -/
structure ExtToolMsg (B : Type) where
  toolCallId : Str
  name : Str
  content : ExtToolContent B
deriving DecidableEq, Repr

/-- `toolCalls.filter(tc => tc && tc.name)` (the extension checks only the
name, not the id). -/
def validExtCalls (tcs : List (Option RawCall)) : List RawCall :=
  (tcs.filterMap id).filter (fun tc => !tc.name.isEmpty)

/-- The `Promise.all` tool batch: every call is processed; per-call argument
parse failures are confined to that call.  Returns the tool messages in batch
order and the list of dispatched tool invocations. -/
def extRunBatch {A B : Type} (parse : Str → Option A) (run : Str → A → B) :
    List RawCall → List (ExtToolMsg B) × List (Str × A)
  | [] => ([], [])
  | tc :: rest =>
    match parse tc.args with
    | none =>
      (⟨tc.id, tc.name, .invalidArgs⟩ :: (extRunBatch parse run rest).1,
        (extRunBatch parse run rest).2)
    | some a =>
      (⟨tc.id, tc.name, .result (run tc.name a)⟩ :: (extRunBatch parse run rest).1,
        (tc.name, a) :: (extRunBatch parse run rest).2)

/-- Actions `_runTerminalCommand` performs, in order: webview posts and
process spawns. -/
inductive ExtAction
  | approvalPost (id : Str) (cmd : Str)
  | spawnProc (cmd : Str)
  | termOut (s : Str)
deriving DecidableEq, Repr

/-- Behaviour of the spawned shell process. -/
inductive SpawnOutcome
  | closed (output : Str) (code : Int)
  | failed (message : Str)
deriving DecidableEq, Repr

/-- The four result objects `_runTerminalCommand` can resolve with. -/
inductive CmdResult
  | finished (output : Str) (success : Bool) (exitCode : Int)
  | spawnError (message : Str)
  | rejected
  | noWorkspace
deriving DecidableEq, Repr

/-- Result from the process handlers (`close` / `error`). -/
def spawnResultOf : SpawnOutcome → CmdResult
  | .closed out code => .finished out (code == 0) code
  | .failed m => .spawnError m

/-- `terminal_out` posts in the approved path (one per output chunk; the
model groups them into one). -/
def termOutPosts : SpawnOutcome → List ExtAction
  | .closed out _ => [.termOut out]
  | .failed _ => []

/-- `_runTerminalCommand` (`extension.ts`): in `'full'` (autopilot) mode the
command is spawned immediately, with no webview post at all; in `'secure'`
mode an `approval` card is posted first, the promise waits for the user's
`decision`, a rejection resolves to `Reddedildi.` without spawning, and an
approval spawns the process exactly once (forwarding output as
`terminal_out`).  `hasWs` is whether a workspace folder is open. -/
def runTerminalCommand (mode : SecMode) (hasWs : Bool) (decision : Bool)
    (outcome : SpawnOutcome) (approvalId command : Str) : List ExtAction × CmdResult :=
  match mode with
  | .full =>
    if hasWs then ([.spawnProc command], spawnResultOf outcome)
    else ([], .noWorkspace)
  | .secure =>
    if decision then
      if hasWs then
        ([.approvalPost approvalId command, .spawnProc command] ++ termOutPosts outcome,
          spawnResultOf outcome)
      else ([.approvalPost approvalId command], .noWorkspace)
    else ([.approvalPost approvalId command], .rejected)

/-- The extension agent loop (`while (!isDone && loopCount < 15)`), tracking
the number of model requests and of `done` posts.  `errCheck` abstracts the
`hadError` scan over the relevant tool messages; `rounds n` is the
accumulated stream result of the `n`-th request. -/
def extLoopAux {A B : Type} (parse : Str → Option A) (run : Str → A → B)
    (errCheck : List (ExtToolMsg B) → Bool) (rounds : Nat → Str × List (Option RawCall)) :
    Nat → Nat → List (ExtToolMsg B) → Nat → Nat × Nat
  | 0, count, _, dp => (count, dp)
  | fuel + 1, count, toolHist, dp =>
    let valid := validExtCalls (rounds count).2
    if valid.isEmpty then
      if errCheck toolHist && decide (count + 1 < 10) then
        extLoopAux parse run errCheck rounds fuel (count + 1) toolHist dp
      else (count + 1, dp + 1)
    else
      extLoopAux parse run errCheck rounds fuel (count + 1)
        (toolHist ++ (extRunBatch parse run valid).1) (dp + 1)

/-- Run the extension loop from the start of a user turn. -/
def extLoopRun {A B : Type} (parse : Str → Option A) (run : Str → A → B)
    (errCheck : List (ExtToolMsg B) → Bool) (rounds : Nat → Str × List (Option RawCall)) :
    Nat × Nat :=
  extLoopAux parse run errCheck rounds 15 0 [] 0

theorem extLoopAux_spec {A B : Type} (parse : Str → Option A) (run : Str → A → B)
    (errCheck : List (ExtToolMsg B) → Bool) (rounds : Nat → Str × List (Option RawCall))
    (h : ∀ n, (validExtCalls (rounds n).2).isEmpty = false) :
    ∀ (fuel count : Nat) (toolHist : List (ExtToolMsg B)) (dp : Nat),
      extLoopAux parse run errCheck rounds fuel count toolHist dp =
        (count + fuel, dp + fuel) := by
  intro fuel
  induction fuel with
  | zero => intro count toolHist dp; rfl
  | succ fuel ih =>
    intro count toolHist dp
    simp only [extLoopAux, h count, Bool.false_eq_true, if_false]
    rw [ih]
    have h1 : count + 1 + fuel = count + (fuel + 1) := by omega
    have h2 : dp + 1 + fuel = dp + (fuel + 1) := by omega
    rw [h1, h2]

/-- Claim C7: the agent loop never exceeds the round cap of 15.  For a model
that emits a (trivial, non-`runCommand`, parseable) tool call in every round,
the server loop issues exactly 15 model requests and then terminates with a
final `done` event; the extension loop likewise issues exactly 15 requests
and posts its per-round `done` message 15 times rather than hanging. -/
theorem agent_loop_round_cap {A B : Type}
    (parse : Str → Option SrvArgs) (runH : Str → SrvArgs → HandlerResult)
    (ws : Str) (msgs0 : List SrvMsg) (rounds : Nat → Str × List (Option RawCall))
    (eparse : Str → Option A) (erun : Str → A → B)
    (errCheck : List (ExtToolMsg B) → Bool) (erounds : Nat → Str × List (Option RawCall))
    (h : ∀ n, roundContinues parse (rounds n).1 (rounds n).2 = true)
    (he : ∀ n, (validExtCalls (erounds n).2).isEmpty = false) :
    (∃ evs stats, serverChat parse runH ws msgs0 rounds = (15, evs ++ [SrvEvent.doneEv stats])) ∧
    extLoopRun eparse erun errCheck erounds = (15, 15) := by
  constructor
  · obtain ⟨evs, stats', hs⟩ := serverLoopAux_spec parse runH ws rounds h 15 0 msgs0 [] []
    exact ⟨evs, stats', by simpa [serverChat] using hs⟩
  · simpa [extLoopRun] using extLoopAux_spec eparse erun errCheck erounds he 15 0 [] 0

/-- Concrete model behaviour for the C7 witness: one `readFile` call with
empty arguments in every round. -/
def roundsDemo : Nat → Str × List (Option RawCall) :=
  fun _ => ([], [some ⟨"1".toList, "readFile".toList, []⟩])

/-- A `JSON.parse` behaviour that parses everything to the empty object. -/
def parseTrivial : Str → Option SrvArgs := fun _ => some ⟨none, none⟩

/-- A tool-handler behaviour that always succeeds. -/
def runHTrivial : Str → SrvArgs → HandlerResult := fun _ _ => ⟨true, []⟩

/-- An error scan that never reports an error. -/
def errCheckNever : List (ExtToolMsg HandlerResult) → Bool := fun _ => false

/-- Witness for C7 at a concrete input. -/
theorem agent_loop_round_cap_witness :
    ((∀ n, roundContinues parseTrivial (roundsDemo n).1 (roundsDemo n).2 = true) ∧
      (∀ n, (validExtCalls (roundsDemo n).2).isEmpty = false)) ∧
    ((∃ evs stats, serverChat parseTrivial runHTrivial [] [] roundsDemo =
        (15, evs ++ [SrvEvent.doneEv stats])) ∧
      extLoopRun parseTrivial runHTrivial errCheckNever roundsDemo = (15, 15)) :=
  ⟨⟨fun n => by simp only [roundsDemo]; decide, fun n => by simp only [roundsDemo]; decide⟩,
    agent_loop_round_cap parseTrivial runHTrivial [] [] roundsDemo
      parseTrivial runHTrivial errCheckNever roundsDemo
      (fun n => by simp only [roundsDemo]; decide) (fun n => by simp only [roundsDemo]; decide)⟩

/-! ### Batch behaviour at the approval boundary (claims C3, C4) -/

theorem execCalls_post_ignored (runH : Str → SrvArgs → HandlerResult) (ws : Str) :
    ∀ (pre : List (RawCall × SrvArgs)) (acc : RoundOut) (rcp : RawCall × SrvArgs)
      (post : List (RawCall × SrvArgs)),
      (∀ p ∈ pre, ¬ p.1.name = runCommandName) → rcp.1.name = runCommandName →
      execCalls runH ws acc (pre ++ rcp :: post) = execCalls runH ws acc (pre ++ [rcp]) := by
  intro pre
  induction pre with
  | nil =>
    intro acc rcp post _ hrc
    simp only [List.nil_append, execCalls, if_pos hrc]
  | cons p pre' ih =>
    intro acc rcp post hpre hrc
    obtain ⟨tc, args⟩ := p
    have hname : ¬ tc.name = runCommandName := hpre (tc, args) (by simp)
    simp only [List.cons_append, execCalls, if_neg hname]
    split
    · exact ih _ rcp post (fun q hq => hpre q (by simp [hq])) hrc
    · exact ih acc rcp post (fun q hq => hpre q (by simp [hq])) hrc

theorem execCalls_halt_isDone (runH : Str → SrvArgs → HandlerResult) (ws : Str) :
    ∀ (pre : List (RawCall × SrvArgs)) (acc : RoundOut) (rcp : RawCall × SrvArgs)
      (post : List (RawCall × SrvArgs)),
      (∀ p ∈ pre, ¬ p.1.name = runCommandName) → rcp.1.name = runCommandName →
      (execCalls runH ws acc (pre ++ rcp :: post)).isDone = true := by
  intro pre
  induction pre with
  | nil =>
    intro acc rcp post _ hrc
    simp only [List.nil_append, execCalls, if_pos hrc]
  | cons p pre' ih =>
    intro acc rcp post hpre hrc
    obtain ⟨tc, args⟩ := p
    have hname : ¬ tc.name = runCommandName := hpre (tc, args) (by simp)
    simp only [List.cons_append, execCalls, if_neg hname]
    split
    · exact ih _ rcp post (fun q hq => hpre q (by simp [hq])) hrc
    · exact ih acc rcp post (fun q hq => hpre q (by simp [hq])) hrc

theorem execCalls_halt_execs (runH : Str → SrvArgs → HandlerResult) (ws : Str) :
    ∀ (pre : List (RawCall × SrvArgs)) (acc : RoundOut) (rcp : RawCall × SrvArgs)
      (post : List (RawCall × SrvArgs)),
      (∀ p ∈ pre, ¬ p.1.name = runCommandName) → rcp.1.name = runCommandName →
      (execCalls runH ws acc (pre ++ rcp :: post)).execs =
        acc.execs ++ (pre.filter (fun p => srvKnownTools.contains p.1.name)).map
          (fun p => (p.1.name, p.2)) := by
  intro pre
  induction pre with
  | nil =>
    intro acc rcp post _ hrc
    simp only [List.nil_append, execCalls, if_pos hrc, List.filter_nil, List.map_nil,
      List.append_nil]
  | cons p pre' ih =>
    intro acc rcp post hpre hrc
    obtain ⟨tc, args⟩ := p
    have hname : ¬ tc.name = runCommandName := hpre (tc, args) (by simp)
    simp only [List.cons_append, execCalls, if_neg hname]
    by_cases hknown : srvKnownTools.contains tc.name = true
    · have hmem : tc.name ∈ srvKnownTools := by simpa using hknown
      simp only [hknown, if_true, List.append_eq]
      rw [ih _ rcp post (fun q hq => hpre q (by simp [hq])) hrc]
      simp [List.filter_cons, hmem, List.append_assoc]
    · have hknown' : srvKnownTools.contains tc.name = false := by
        cases hb : srvKnownTools.contains tc.name with
        | false => rfl
        | true => exact absurd hb hknown
      have hmem : ¬ tc.name ∈ srvKnownTools := by simpa using hknown'
      simp only [hknown', Bool.false_eq_true, if_false, List.append_eq]
      rw [ih acc rcp post (fun q hq => hpre q (by simp [hq])) hrc]
      simp [List.filter_cons, hmem]

theorem extRunBatch_all_started {A B : Type} (parse : Str → Option A) (run : Str → A → B) :
    ∀ (batch : List RawCall),
      (extRunBatch parse run batch).1.length = batch.length ∧
      (extRunBatch parse run batch).2 =
        batch.filterMap (fun tc => (parse tc.args).map (fun a => (tc.name, a))) := by
  intro batch
  induction batch with
  | nil => exact ⟨rfl, rfl⟩
  | cons tc rest ih =>
    cases hp : parse tc.args with
    | none => simp [extRunBatch, hp, ih.1, ih.2]
    | some a => simp [extRunBatch, hp, ih.1, ih.2]

/-- Counterexample to claim C3 as stated: in the extension, a tool call
positioned after `run_terminal_cmd` in the same batch IS started — the
`Promise.all` dispatch log for the batch `[run_terminal_cmd, read_file]`
contains the `read_file` invocation. -/
theorem batch_after_runCommand_started_counterexample :
    (extRunBatch parseTrivial runHTrivial
        [⟨"1".toList, "run_terminal_cmd".toList, []⟩,
         ⟨"2".toList, "read_file".toList, []⟩]).2 =
      [("run_terminal_cmd".toList, (⟨none, none⟩ : SrvArgs)),
       ("read_file".toList, (⟨none, none⟩ : SrvArgs))] := by
  decide

/-- Claim C3 (amended): in the server loop, a `runCommand` call halts the
batch at the approval boundary — calls before it complete normally (each
known tool exactly once, in order), calls after it are never started and not
recorded — and the round ends (`isDone`).  In the extension loop, by
contrast, `Promise.all` starts every call of the batch, including those
positioned after `run_terminal_cmd`: the batch produces one tool message per
call and dispatches every call with parseable arguments. -/
theorem runCommand_halts_server_batch_only {A B : Type}
    (runH : Str → SrvArgs → HandlerResult) (ws : Str)
    (pre : List (RawCall × SrvArgs)) (acc : RoundOut) (rcp : RawCall × SrvArgs)
    (post : List (RawCall × SrvArgs))
    (parse : Str → Option A) (run : Str → A → B) (batch : List RawCall)
    (hpre : ∀ p ∈ pre, ¬ p.1.name = runCommandName) (hrc : rcp.1.name = runCommandName) :
    (execCalls runH ws acc (pre ++ rcp :: post) = execCalls runH ws acc (pre ++ [rcp]) ∧
      (execCalls runH ws acc (pre ++ rcp :: post)).isDone = true ∧
      (execCalls runH ws acc (pre ++ rcp :: post)).execs =
        acc.execs ++ (pre.filter (fun p => srvKnownTools.contains p.1.name)).map
          (fun p => (p.1.name, p.2))) ∧
    ((extRunBatch parse run batch).1.length = batch.length ∧
      (extRunBatch parse run batch).2 =
        batch.filterMap (fun tc => (parse tc.args).map (fun a => (tc.name, a)))) :=
  ⟨⟨execCalls_post_ignored runH ws pre acc rcp post hpre hrc,
      execCalls_halt_isDone runH ws pre acc rcp post hpre hrc,
      execCalls_halt_execs runH ws pre acc rcp post hpre hrc⟩,
    extRunBatch_all_started parse run batch⟩

/-- Witness for the amended C3 at a concrete input: batch
`[editFile, runCommand, readFile]` on the server — `editFile` executes,
`readFile` is never started. -/
theorem runCommand_halts_server_batch_only_witness :
    ((∀ p ∈ [((⟨"1".toList, "editFile".toList, []⟩ : RawCall), (⟨none, none⟩ : SrvArgs))],
        ¬ p.1.name = runCommandName) ∧
      ((⟨"2".toList, "runCommand".toList, []⟩ : RawCall), (⟨none, none⟩ : SrvArgs)).1.name =
        runCommandName) ∧
    (execCalls runHTrivial []
        ⟨[], [], [], [], false⟩
        ([(⟨"1".toList, "editFile".toList, []⟩, ⟨none, none⟩)] ++
          (⟨"2".toList, "runCommand".toList, []⟩, (⟨none, none⟩ : SrvArgs)) ::
          [(⟨"3".toList, "readFile".toList, []⟩, ⟨none, none⟩)]) =
      execCalls runHTrivial [] ⟨[], [], [], [], false⟩
        ([(⟨"1".toList, "editFile".toList, []⟩, ⟨none, none⟩)] ++
          [(⟨"2".toList, "runCommand".toList, []⟩, ⟨none, none⟩)]) ∧
      (execCalls runHTrivial [] ⟨[], [], [], [], false⟩
        ([(⟨"1".toList, "editFile".toList, []⟩, ⟨none, none⟩)] ++
          (⟨"2".toList, "runCommand".toList, []⟩, (⟨none, none⟩ : SrvArgs)) ::
          [(⟨"3".toList, "readFile".toList, []⟩, ⟨none, none⟩)])).isDone = true ∧
      (execCalls runHTrivial [] ⟨[], [], [], [], false⟩
        ([(⟨"1".toList, "editFile".toList, []⟩, ⟨none, none⟩)] ++
          (⟨"2".toList, "runCommand".toList, []⟩, (⟨none, none⟩ : SrvArgs)) ::
          [(⟨"3".toList, "readFile".toList, []⟩, ⟨none, none⟩)])).execs =
        (⟨[], [], [], [], false⟩ : RoundOut).execs ++
          ([((⟨"1".toList, "editFile".toList, []⟩ : RawCall), (⟨none, none⟩ : SrvArgs))].filter
            (fun p => srvKnownTools.contains p.1.name)).map (fun p => (p.1.name, p.2))) :=
  ⟨⟨by decide, by decide⟩,
    (runCommand_halts_server_batch_only runHTrivial []
      [(⟨"1".toList, "editFile".toList, []⟩, ⟨none, none⟩)] ⟨[], [], [], [], false⟩
      (⟨"2".toList, "runCommand".toList, []⟩, ⟨none, none⟩)
      [(⟨"3".toList, "readFile".toList, []⟩, ⟨none, none⟩)]
      parseTrivial runHTrivial [] (by decide) (by decide)).1⟩

/-! ### Malformed accumulated tool-call arguments (claim C4) -/

/-- A `JSON.parse` behaviour that throws on every (non-empty) argument
string; stands for `JSON.parse` applied to malformed input. -/
def parseNever : Str → Option SrvArgs := fun _ => none

theorem parseAllArgs_none_of_mem (parse : Str → Option SrvArgs) :
    ∀ (l : List RawCall) (tc : RawCall), tc ∈ l → parseArgs parse tc.args = none →
      parseAllArgs parse l = none := by
  intro l
  induction l with
  | nil => intro tc h; simp at h
  | cons hd rest ih =>
    intro tc hmem hfail
    rcases List.mem_cons.mp hmem with rfl | hmem
    · simp [parseAllArgs, hfail]
    · simp only [parseAllArgs]
      rw [ih tc hmem hfail]
      cases parseArgs parse hd.args <;> rfl

theorem extRunBatch_bad_call_confined {A B : Type} (parse : Str → Option A) (run : Str → A → B) :
    ∀ (pre : List RawCall) (tc : RawCall) (post : List RawCall), parse tc.args = none →
      (extRunBatch parse run (pre ++ tc :: post)).1 =
        (extRunBatch parse run pre).1 ++
          ⟨tc.id, tc.name, .invalidArgs⟩ :: (extRunBatch parse run post).1 ∧
      (extRunBatch parse run (pre ++ tc :: post)).2 =
        (extRunBatch parse run pre).2 ++ (extRunBatch parse run post).2 := by
  intro pre
  induction pre with
  | nil =>
    intro tc post hfail
    simp [extRunBatch, hfail]
  | cons p pre' ih =>
    intro tc post hfail
    obtain ⟨h1, h2⟩ := ih tc post hfail
    cases hp : parse p.args <;> simp [extRunBatch, hp, h1, h2]

theorem serverRound_error_of_bad_args (parse : Str → Option SrvArgs)
    (runH : Str → SrvArgs → HandlerResult) (ws : Str) (msgs : List SrvMsg) (reply : Str)
    (tcs : List (Option RawCall)) (tc : RawCall)
    (hmem : tc ∈ validCallsOf tcs) (hfail : parseArgs parse tc.args = none) :
    serverRound parse runH ws msgs reply tcs = .error () := by
  have htcs : ¬ tcs.isEmpty = true := by
    intro h
    rw [List.isEmpty_iff] at h
    subst h
    simp [validCallsOf] at hmem
  have hvalid : ¬ (validCallsOf tcs).isEmpty = true := by
    intro h
    rw [List.isEmpty_iff] at h
    rw [h] at hmem
    simp at hmem
  simp only [serverRound, if_neg htcs, if_neg hvalid]
  rw [parseAllArgs_none_of_mem parse (validCallsOf tcs) tc hmem hfail]

/-- Counterexample to claim C4 as stated: in the server, an accumulated
tool-call arguments string that fails to `JSON.parse` aborts the whole
round — `serverRound` throws to the endpoint's `catch`, the loop emits an
`error` event instead of continuing, and no `done` event is produced. -/
theorem malformed_args_abort_round_counterexample :
    serverRound parseNever runHTrivial [] [] []
        [some ⟨"1".toList, "readFile".toList, "x".toList⟩] = .error () ∧
    serverLoopAux parseNever runHTrivial []
        (fun _ => ([], [some ⟨"1".toList, "readFile".toList, "x".toList⟩])) 15 0 [] [] [] =
      (1, [SrvEvent.errorEv]) := by
  constructor
  · rfl
  · rfl

/-- Claim C4 (amended): in the extension, an accumulated arguments string
that fails to `JSON.parse` is a per-call failure — that call alone answers
with the `Argümanlar geçersiz JSON.` tool message, every other call of the
batch is processed normally, and the round continues.  In the server,
however, the same condition throws out of the round: the endpoint's `catch`
ends the stream with an `error` event, aborting the whole round. -/
theorem malformed_args_per_call_vs_server_abort {A B : Type}
    (eparse : Str → Option A) (erun : Str → A → B)
    (pre : List RawCall) (btc : RawCall) (post : List RawCall)
    (parse : Str → Option SrvArgs) (runH : Str → SrvArgs → HandlerResult) (ws : Str)
    (msgs : List SrvMsg) (reply : Str) (tcs : List (Option RawCall)) (stc : RawCall)
    (hext : eparse btc.args = none)
    (hmem : stc ∈ validCallsOf tcs) (hsrv : parseArgs parse stc.args = none) :
    ((extRunBatch eparse erun (pre ++ btc :: post)).1 =
        (extRunBatch eparse erun pre).1 ++
          ⟨btc.id, btc.name, .invalidArgs⟩ :: (extRunBatch eparse erun post).1 ∧
      (extRunBatch eparse erun (pre ++ btc :: post)).2 =
        (extRunBatch eparse erun pre).2 ++ (extRunBatch eparse erun post).2) ∧
    serverRound parse runH ws msgs reply tcs = .error () :=
  ⟨extRunBatch_bad_call_confined eparse erun pre btc post hext,
    serverRound_error_of_bad_args parse runH ws msgs reply tcs stc hmem hsrv⟩

/-- Witness for the amended C4 at a concrete input: extension batch
`[read_file (bad args), list_dir]` — the bad call yields the per-call error
message and `list_dir` still runs; the same bad call makes the server round
throw. -/
theorem malformed_args_per_call_vs_server_abort_witness :
    (parseNever ("x".toList : Str) = none ∧
      (⟨"1".toList, "readFile".toList, "x".toList⟩ : RawCall) ∈
        validCallsOf [some ⟨"1".toList, "readFile".toList, "x".toList⟩] ∧
      parseArgs parseNever ("x".toList : Str) = none) ∧
    (((extRunBatch parseNever runHTrivial
          ([] ++ (⟨"1".toList, "read_file".toList, "x".toList⟩ : RawCall) ::
            [⟨"2".toList, "list_dir".toList, []⟩])).1 =
        (extRunBatch parseNever runHTrivial []).1 ++
          ⟨"1".toList, "read_file".toList, .invalidArgs⟩ ::
            (extRunBatch parseNever runHTrivial [⟨"2".toList, "list_dir".toList, []⟩]).1 ∧
      (extRunBatch parseNever runHTrivial
          ([] ++ (⟨"1".toList, "read_file".toList, "x".toList⟩ : RawCall) ::
            [⟨"2".toList, "list_dir".toList, []⟩])).2 =
        (extRunBatch parseNever runHTrivial []).2 ++
          (extRunBatch parseNever runHTrivial [⟨"2".toList, "list_dir".toList, []⟩]).2) ∧
      serverRound parseNever runHTrivial [] [] []
        [some ⟨"1".toList, "readFile".toList, "x".toList⟩] = .error ()) :=
  ⟨⟨rfl, by decide, rfl⟩,
    malformed_args_per_call_vs_server_abort parseNever runHTrivial
      [] ⟨"1".toList, "read_file".toList, "x".toList⟩ [⟨"2".toList, "list_dir".toList, []⟩]
      parseNever runHTrivial [] [] []
      [some ⟨"1".toList, "readFile".toList, "x".toList⟩]
      ⟨"1".toList, "readFile".toList, "x".toList⟩
      rfl (by decide) rfl⟩

/-! ### The approval gate for shell commands (claim C1) -/

/-- Is an extension action a process spawn? -/
def isSpawn : ExtAction → Bool
  | .spawnProc _ => true
  | _ => false

theorem execCalls_never_executes_runCommand (runH : Str → SrvArgs → HandlerResult) (ws : Str) :
    ∀ (pairs : List (RawCall × SrvArgs)) (acc : RoundOut),
      (∀ e ∈ acc.execs, ¬ e.1 = runCommandName) →
      ∀ e ∈ (execCalls runH ws acc pairs).execs, ¬ e.1 = runCommandName := by
  intro pairs
  induction pairs with
  | nil => intro acc hacc; exact hacc
  | cons p rest ih =>
    intro acc hacc
    obtain ⟨tc, args⟩ := p
    by_cases hname : tc.name = runCommandName
    · simp only [execCalls, if_pos hname]
      exact hacc
    · simp only [execCalls, if_neg hname]
      split
      · apply ih
        intro e he
        rcases List.mem_append.mp he with he | he
        · exact hacc e he
        · simp at he
          subst he
          exact hname
      · exact ih acc hacc

theorem execCalls_emits_approval (runH : Str → SrvArgs → HandlerResult) (ws : Str) :
    ∀ (pairs : List (RawCall × SrvArgs)) (acc : RoundOut),
      (∃ p ∈ pairs, p.1.name = runCommandName) →
      ∃ i c w, SrvEvent.approvalRequired i c w ∈ (execCalls runH ws acc pairs).events := by
  intro pairs
  induction pairs with
  | nil => intro acc h; simp at h
  | cons p rest ih =>
    intro acc h
    obtain ⟨tc, args⟩ := p
    by_cases hname : tc.name = runCommandName
    · simp only [execCalls, if_pos hname]
      exact ⟨tc.id, args.command, jsOr args.cwd ws, by simp⟩
    · simp only [execCalls, if_neg hname]
      obtain ⟨q, hq, hqname⟩ := h
      rcases List.mem_cons.mp hq with rfl | hq
      · exact absurd hqname hname
      · split
        · exact ih _ ⟨q, hq, hqname⟩
        · exact ih acc ⟨q, hq, hqname⟩

/-- Counterexample to claim C1 as stated: in the extension's `'full'`
(autopilot) security mode, a `run_terminal_cmd` tool call spawns the shell
process immediately — the action trace is exactly one spawn, with no
approval-required event preceding it (or anywhere). -/
theorem run_command_autopilot_counterexample :
    runTerminalCommand .full true true (.closed [] 0) "1".toList "echo hi".toList =
      ([ExtAction.spawnProc "echo hi".toList], .finished [] true 0) := by
  decide

/-- Claim C1 (amended): whenever the approval gate is active — the server
flow always, and the extension in its `'secure'` mode (the persisted
default) — a run-command tool call emits an approval-required event before
any process is spawned; a rejected decision executes zero processes and the
rejection is the recorded tool result; an approved decision executes the
command exactly once (in the server flow, via the single `execSync` of the
approve endpoint).  In the extension's explicit opt-in `'full'` (autopilot)
mode, however, the command is spawned without any approval event. -/
theorem approval_gate_run_command (hasWs decision : Bool) (outcome : SpawnOutcome)
    (apId cmd : Str) (runH : Str → SrvArgs → HandlerResult) (ws : Str)
    (pairs : List (RawCall × SrvArgs)) (acc : RoundOut) (ws2 : Str)
    (shell : ExecCall → ExecOutcome) (body : ApproveBody)
    (hacc : ∀ e ∈ acc.execs, ¬ e.1 = runCommandName) :
    (runTerminalCommand .secure hasWs decision outcome apId cmd).1.head? =
      some (.approvalPost apId cmd) ∧
    (decision = false →
      runTerminalCommand .secure hasWs decision outcome apId cmd =
        ([.approvalPost apId cmd], .rejected)) ∧
    (decision = true → hasWs = true →
      (runTerminalCommand .secure hasWs decision outcome apId cmd).1.filter isSpawn =
        [.spawnProc cmd]) ∧
    (∀ e ∈ (execCalls runH ws acc pairs).execs, ¬ e.1 = runCommandName) ∧
    ((∃ p ∈ pairs, p.1.name = runCommandName) →
      ∃ i c w, SrvEvent.approvalRequired i c w ∈ (execCalls runH ws acc pairs).events) ∧
    (approveEndpoint ws2 shell body).1.length = 1 := by
  refine ⟨?_, ?_, ?_, execCalls_never_executes_runCommand runH ws pairs acc hacc,
    execCalls_emits_approval runH ws pairs acc, rfl⟩
  · cases decision <;> cases hasWs <;> rfl
  · intro hd; subst hd; rfl
  · intro hd hw
    subst hd; subst hw
    cases outcome <;> rfl

/-- Witness for the amended C1 at a concrete input: a rejected `ls` in secure
mode (no spawn, `Reddedildi.` recorded), a server batch containing a
`runCommand` call (approval event emitted, nothing executed), and an
approve-endpoint request (exactly one `execSync`). -/
theorem approval_gate_run_command_witness :
    (∀ e ∈ (⟨[], [], [], [], false⟩ : RoundOut).execs, ¬ e.1 = runCommandName) ∧
    ((runTerminalCommand .secure true false (.closed [] 0) "7".toList "ls".toList).1.head? =
        some (.approvalPost "7".toList "ls".toList) ∧
      (false = false →
        runTerminalCommand .secure true false (.closed [] 0) "7".toList "ls".toList =
          ([.approvalPost "7".toList "ls".toList], .rejected)) ∧
      (false = true → true = true →
        (runTerminalCommand .secure true false (.closed [] 0) "7".toList "ls".toList).1.filter
            isSpawn = [.spawnProc "ls".toList]) ∧
      (∀ e ∈ (execCalls runHTrivial [] ⟨[], [], [], [], false⟩
          [(⟨"1".toList, "runCommand".toList, []⟩, ⟨some "ls".toList, none⟩)]).execs,
        ¬ e.1 = runCommandName) ∧
      ((∃ p ∈ [((⟨"1".toList, "runCommand".toList, []⟩ : RawCall),
            (⟨some "ls".toList, none⟩ : SrvArgs))], p.1.name = runCommandName) →
        ∃ i c w, SrvEvent.approvalRequired i c w ∈ (execCalls runHTrivial []
          ⟨[], [], [], [], false⟩
          [(⟨"1".toList, "runCommand".toList, []⟩, ⟨some "ls".toList, none⟩)]).events) ∧
      (approveEndpoint [] (fun _ => .ok []) ⟨"1".toList, "ls".toList, none⟩).1.length = 1) :=
  ⟨by decide,
    approval_gate_run_command true false (.closed [] 0) "7".toList "ls".toList
      runHTrivial [] [(⟨"1".toList, "runCommand".toList, []⟩, ⟨some "ls".toList, none⟩)]
      ⟨[], [], [], [], false⟩ [] (fun _ => .ok []) ⟨"1".toList, "ls".toList, none⟩
      (by decide)⟩

/-! ## Directory listing (claim C9)

Server `toolHandlers.listFiles` (`server/index.js`): depth-capped recursive
listing that skips a fixed ignore set and per-child stat errors, then sorts
each directory's entries with folders first and names compared within each
group (`localeCompare` is modelled as code-point lexicographic order).  The
extension's `_listDir` returns the host's `readDirectory` entries as they
come — no filtering and no sorting. -/

/-- A filesystem node as `readdirSync`/`statSync` see it; `broken` is a child
whose `statSync` throws. -/
inductive FsNode
  | file (name : Str)
  | dir (name : Str) (children : List FsNode)
  | broken (name : Str)

/-- The name of a node. -/
def FsNode.nodeName : FsNode → Str
  | .file n => n
  | .dir n _ => n
  | .broken n => n

/-- Does `statSync` throw on this child? -/
def FsNode.isBroken : FsNode → Bool
  | .broken _ => true
  | _ => false

/-- The fixed ignore set of `listFiles`. -/
def ignoreNames : List Str :=
  ["node_modules", ".git", ".next", "dist", "build", ".cache"].map String.toList

/-- One entry of the returned listing (`{name, type, children?}`). -/
inductive Entry
  | node (name : Str) (isFolder : Bool) (children : List Entry)

/-- Entry accessors. -/
def Entry.entryName : Entry → Str
  | .node n _ _ => n

def Entry.entryIsFolder : Entry → Bool
  | .node _ f _ => f

def Entry.entryChildren : Entry → List Entry
  | .node _ _ cs => cs

/-- Code-point lexicographic order on names (the model of
`a.name.localeCompare(b.name) ≤ 0`). -/
def strLe : Str → Str → Bool
  | [], _ => true
  | _ :: _, [] => false
  | a :: as, b :: bs => if a = b then strLe as bs else decide (a < b)

/-- The `listFiles` sort comparator: folders before files, then by name. -/
def entryLe (a b : Entry) : Bool :=
  if a.entryIsFolder = b.entryIsFolder then strLe a.entryName b.entryName
  else a.entryIsFolder

/-- Insert into a sorted list (auxiliary for the sort model). -/
def insertLe {α : Type} (le : α → α → Bool) (x : α) : List α → List α
  | [] => [x]
  | y :: ys => if le x y then x :: y :: ys else y :: insertLe le x ys

/-- `Array.prototype.sort(comparator)` is modelled as a stable insertion sort
with the same comparator; the properties claimed of `listFiles` depend only
on the sortedness and membership of the result. -/
def sortLe {α : Type} (le : α → α → Bool) : List α → List α
  | [] => []
  | x :: xs => insertLe le x (sortLe le xs)

/-- The `for (const item of items)` body of the inner `listDir`: build an
entry per accessible, non-ignored child; `children` is the recursive listing
of a subdirectory one level deeper. -/
def entriesOfWith (children : List FsNode → List Entry) (recursive : Bool) :
    List FsNode → List Entry
  | [] => []
  | c :: rest =>
    (if ignoreNames.contains c.nodeName then []
     else
       match c with
       | .broken _ => []
       | .file n => [.node n false []]
       | .dir n cs' => [.node n true (if recursive then children cs' else [])]) ++
    entriesOfWith children recursive rest

/-- The inner `listDir(dir, level)` of `toolHandlers.listFiles`: depth cap
(`level > 2` returns `[]`), ignore-set filter, per-child stat-error skip,
optional recursion into subdirectories, then the folder-first sort.  The
extra `fuel` argument only drives the structural recursion: the top-level
call passes 4, one more than the depth the cap allows, and every reachable
recursive call keeps `fuel + level = 4`, so the `fuel = 0` branch is
unreachable (the `level > 2` test always fires first). -/
def listDirF (recursive : Bool) : Nat → Nat → List FsNode → List Entry
  | 0, _, _ => []
  | fuel + 1, level, cs =>
    if level > 2 then []
    else sortLe entryLe (entriesOfWith (listDirF recursive fuel (level + 1)) recursive cs)

/-- The `listFiles` handler on the root directory's children (`listDir(dirPath)`
starts at level 0). -/
def listFiles (recursive : Bool) (root : List FsNode) : List Entry × Nat :=
  ((listDirF recursive 4 0 root), (listDirF recursive 4 0 root).length)

/-- The extension's `_listDir`: the raw `readDirectory` entries (name and
whether the entry is a directory) mapped to `{name, type}` with `type` the
string `dir` or `file`, in the order the host returned them — no ignore
filter, no sort. -/
def extListDir (entries : List (Str × Bool)) : List (Str × Str) :=
  entries.map (fun e => (e.1, if e.2 then "dir".toList else "file".toList))

/-! ### Order and sort facts for the listing -/

theorem strLe_trans : ∀ (a b c : Str), strLe a b = true → strLe b c = true → strLe a c = true := by
  intro a
  induction a with
  | nil => intro b c _ _; rfl
  | cons x as ih =>
    intro b c hab hbc
    cases b with
    | nil => simp [strLe] at hab
    | cons y bs =>
      cases c with
      | nil => simp [strLe] at hbc
      | cons z cs =>
        simp only [strLe] at hab hbc ⊢
        by_cases hxy : x = y
        · subst hxy
          rw [if_pos rfl] at hab
          by_cases hyz : x = z
          · subst hyz
            rw [if_pos rfl] at hbc
            rw [if_pos rfl]
            exact ih bs cs hab hbc
          · rw [if_neg hyz] at hbc
            rw [if_neg hyz]
            exact hbc
        · rw [if_neg hxy] at hab
          by_cases hyz : y = z
          · subst hyz
            rw [if_neg hxy]
            exact hab
          · rw [if_neg hyz] at hbc
            have h1 : x < y := of_decide_eq_true hab
            have h2 : y < z := of_decide_eq_true hbc
            have h3 : x < z := lt_trans h1 h2
            have hxz : ¬ x = z := fun he => by subst he; exact absurd h3 (lt_irrefl x)
            rw [if_neg hxz]
            exact decide_eq_true h3

theorem strLe_total : ∀ (a b : Str), (strLe a b || strLe b a) = true := by
  intro a
  induction a with
  | nil => intro b; simp [strLe]
  | cons x as ih =>
    intro b
    cases b with
    | nil => simp [strLe]
    | cons y bs =>
      simp only [strLe]
      by_cases hxy : x = y
      · subst hxy
        rw [if_pos rfl, if_pos rfl]
        exact ih bs
      · have hyx : ¬ y = x := fun h => hxy h.symm
        rw [if_neg hxy, if_neg hyx]
        rcases lt_trichotomy x y with h | h | h
        · simp [h]
        · exact absurd h hxy
        · simp [h]

theorem entryLe_trans (a b c : Entry) (hab : entryLe a b = true) (hbc : entryLe b c = true) :
    entryLe a c = true := by
  simp only [entryLe] at hab hbc ⊢
  by_cases h1 : a.entryIsFolder = b.entryIsFolder
  · rw [if_pos h1] at hab
    by_cases h2 : b.entryIsFolder = c.entryIsFolder
    · rw [if_pos h2] at hbc
      rw [if_pos (h1.trans h2)]
      exact strLe_trans _ _ _ hab hbc
    · rw [if_neg h2] at hbc
      rw [h1]
      rw [if_neg h2]
      exact hbc
  · rw [if_neg h1] at hab
    by_cases h2 : b.entryIsFolder = c.entryIsFolder
    · rw [← h2]
      rw [if_neg h1]
      exact hab
    · -- a folder, b not a folder (from hab), hence b ≠ c impossible unless ...
      cases haf : a.entryIsFolder with
      | false => rw [haf] at hab; simp at hab
      | true =>
        cases hcf : c.entryIsFolder with
        | false => simp
        | true =>
          exfalso
          cases hbf : b.entryIsFolder with
          | false => rw [hbf, hcf] at hbc; simp at hbc
          | true => rw [haf, hbf] at h1; exact h1 rfl

theorem entryLe_total (a b : Entry) : (entryLe a b || entryLe b a) = true := by
  simp only [entryLe]
  by_cases h : a.entryIsFolder = b.entryIsFolder
  · rw [if_pos h, if_pos h.symm]
    exact strLe_total _ _
  · have h' : ¬ b.entryIsFolder = a.entryIsFolder := fun he => h he.symm
    rw [if_neg h, if_neg h']
    cases ha : a.entryIsFolder with
    | true => simp
    | false =>
      cases hb : b.entryIsFolder with
      | true => simp
      | false => rw [ha, hb] at h; exact absurd rfl h

theorem mem_insertLe {α : Type} (le : α → α → Bool) (x a : α) :
    ∀ (l : List α), a ∈ insertLe le x l ↔ a = x ∨ a ∈ l := by
  intro l
  induction l with
  | nil => simp [insertLe]
  | cons y ys ih =>
    simp only [insertLe]
    split
    · simp
    · simp only [List.mem_cons, ih]
      tauto

theorem pairwise_insertLe {α : Type} (le : α → α → Bool)
    (htrans : ∀ a b c, le a b = true → le b c = true → le a c = true)
    (htotal : ∀ a b, (le a b || le b a) = true) (x : α) :
    ∀ (l : List α), List.Pairwise (fun a b => le a b = true) l →
      List.Pairwise (fun a b => le a b = true) (insertLe le x l) := by
  intro l
  induction l with
  | nil => intro _; simp [insertLe]
  | cons y ys ih =>
    intro hp
    rcases List.pairwise_cons.mp hp with ⟨hy, hys⟩
    simp only [insertLe]
    split
    · rename_i hxy
      refine List.pairwise_cons.mpr ⟨?_, hp⟩
      intro b hb
      rcases List.mem_cons.mp hb with rfl | hb
      · exact hxy
      · exact htrans x y b hxy (hy b hb)
    · rename_i hxy
      have hyx : le y x = true := by
        have := htotal x y
        cases hle : le x y with
        | true => exact absurd hle hxy
        | false => rw [hle] at this; simpa using this
      refine List.pairwise_cons.mpr ⟨?_, ih hys⟩
      intro b hb
      rcases (mem_insertLe le x b ys).mp hb with rfl | hb
      · exact hyx
      · exact hy b hb

theorem pairwise_sortLe {α : Type} (le : α → α → Bool)
    (htrans : ∀ a b c, le a b = true → le b c = true → le a c = true)
    (htotal : ∀ a b, (le a b || le b a) = true) :
    ∀ (l : List α), List.Pairwise (fun a b => le a b = true) (sortLe le l) := by
  intro l
  induction l with
  | nil => simp [sortLe]
  | cons x xs ih => exact pairwise_insertLe le htrans htotal x (sortLe le xs) ih

theorem mem_sortLe {α : Type} (le : α → α → Bool) (a : α) :
    ∀ (l : List α), a ∈ sortLe le l ↔ a ∈ l := by
  intro l
  induction l with
  | nil => simp [sortLe]
  | cons x xs ih =>
    simp only [sortLe, mem_insertLe, ih, List.mem_cons]

/-- Adjacent-pair sortedness of an entry list under the listing comparator. -/
def chainLe : List Entry → Bool
  | [] => true
  | [_] => true
  | a :: b :: rest => entryLe a b && chainLe (b :: rest)

theorem chainLe_of_pairwise : ∀ (l : List Entry),
    List.Pairwise (fun a b => entryLe a b = true) l → chainLe l = true := by
  intro l
  induction l with
  | nil => intro _; rfl
  | cons a rest ih =>
    intro hp
    rcases List.pairwise_cons.mp hp with ⟨ha, hrest⟩
    cases rest with
    | nil => rfl
    | cons b rest' =>
      simp only [chainLe, Bool.and_eq_true]
      exact ⟨ha b (by simp), ih hrest⟩

mutual
/-- No ignored name anywhere in an entry tree. -/
def entryClean : Entry → Bool
  | .node n _ cs => !(ignoreNames.contains n) && entriesClean cs
/-- No ignored name anywhere in a list of entry trees. -/
def entriesClean : List Entry → Bool
  | [] => true
  | e :: es => entryClean e && entriesClean es
end

mutual
/-- Every children list in an entry tree is sorted by the listing
comparator. -/
def entrySortedDeep : Entry → Bool
  | .node _ _ cs => chainLe cs && entriesSortedDeep cs
/-- `entrySortedDeep` for every tree of a list. -/
def entriesSortedDeep : List Entry → Bool
  | [] => true
  | e :: es => entrySortedDeep e && entriesSortedDeep es
end

theorem entriesClean_iff : ∀ (l : List Entry),
    entriesClean l = true ↔ ∀ e ∈ l, entryClean e = true := by
  intro l
  induction l with
  | nil => simp [entriesClean]
  | cons e es ih =>
    simp only [entriesClean, Bool.and_eq_true, ih, List.mem_cons]
    constructor
    · rintro ⟨h1, h2⟩ x (rfl | hx)
      · exact h1
      · exact h2 x hx
    · intro h
      exact ⟨h e (Or.inl rfl), fun x hx => h x (Or.inr hx)⟩

theorem entriesSortedDeep_iff : ∀ (l : List Entry),
    entriesSortedDeep l = true ↔ ∀ e ∈ l, entrySortedDeep e = true := by
  intro l
  induction l with
  | nil => simp [entriesSortedDeep]
  | cons e es ih =>
    simp only [entriesSortedDeep, Bool.and_eq_true, ih, List.mem_cons]
    constructor
    · rintro ⟨h1, h2⟩ x (rfl | hx)
      · exact h1
      · exact h2 x hx
    · intro h
      exact ⟨h e (Or.inl rfl), fun x hx => h x (Or.inr hx)⟩

theorem entriesOfWith_mem_clean (children : List FsNode → List Entry) (recursive : Bool)
    (hch : ∀ cs', entriesClean (children cs') = true) :
    ∀ (cs : List FsNode), ∀ e ∈ entriesOfWith children recursive cs, entryClean e = true := by
  intro cs
  induction cs with
  | nil => intro e he; simp [entriesOfWith] at he
  | cons c rest ih =>
    intro e he
    simp only [entriesOfWith, List.mem_append] at he
    rcases he with he | he
    · by_cases hig : ignoreNames.contains c.nodeName = true
      · rw [if_pos hig] at he
        simp at he
      · rw [if_neg hig] at he
        have hig' : ignoreNames.contains c.nodeName = false := by
          cases hb : ignoreNames.contains c.nodeName with
          | false => rfl
          | true => exact absurd hb hig
        cases c with
        | broken n => simp at he
        | file n =>
          simp at he
          subst he
          simp only [entryClean, Bool.and_eq_true]
          refine ⟨by simpa [FsNode.nodeName] using hig', by simp [entriesClean]⟩
        | dir n cs' =>
          simp at he
          subst he
          simp only [entryClean, Bool.and_eq_true]
          refine ⟨by simpa [FsNode.nodeName] using hig', ?_⟩
          split
          · exact hch cs'
          · simp [entriesClean]
    · exact ih e he

theorem listDirF_clean (recursive : Bool) :
    ∀ (fuel level : Nat) (cs : List FsNode),
      entriesClean (listDirF recursive fuel level cs) = true := by
  intro fuel
  induction fuel with
  | zero => intro level cs; simp [listDirF, entriesClean]
  | succ fuel ih =>
    intro level cs
    simp only [listDirF]
    split
    · simp [entriesClean]
    · rw [entriesClean_iff]
      intro e he
      rw [mem_sortLe] at he
      exact entriesOfWith_mem_clean (listDirF recursive fuel (level + 1)) recursive
        (fun cs' => ih (level + 1) cs') cs e he

theorem entriesOfWith_mem_sortedDeep (children : List FsNode → List Entry) (recursive : Bool)
    (hch : ∀ cs', chainLe (children cs') = true ∧ entriesSortedDeep (children cs') = true) :
    ∀ (cs : List FsNode), ∀ e ∈ entriesOfWith children recursive cs,
      entrySortedDeep e = true := by
  intro cs
  induction cs with
  | nil => intro e he; simp [entriesOfWith] at he
  | cons c rest ih =>
    intro e he
    simp only [entriesOfWith, List.mem_append] at he
    rcases he with he | he
    · by_cases hig : ignoreNames.contains c.nodeName = true
      · rw [if_pos hig] at he
        simp at he
      · rw [if_neg hig] at he
        cases c with
        | broken n => simp at he
        | file n =>
          simp at he
          subst he
          simp [entrySortedDeep, chainLe, entriesSortedDeep]
        | dir n cs' =>
          simp at he
          subst he
          simp only [entrySortedDeep, Bool.and_eq_true]
          constructor
          · split
            · exact (hch cs').1
            · rfl
          · split
            · exact (hch cs').2
            · simp [entriesSortedDeep]
    · exact ih e he

theorem listDirF_sorted (recursive : Bool) :
    ∀ (fuel level : Nat) (cs : List FsNode),
      chainLe (listDirF recursive fuel level cs) = true ∧
        entriesSortedDeep (listDirF recursive fuel level cs) = true := by
  intro fuel
  induction fuel with
  | zero => intro level cs; exact ⟨rfl, by simp [listDirF, entriesSortedDeep]⟩
  | succ fuel ih =>
    intro level cs
    simp only [listDirF]
    split
    · exact ⟨rfl, by simp [entriesSortedDeep]⟩
    · constructor
      · exact chainLe_of_pairwise _ (pairwise_sortLe entryLe entryLe_trans entryLe_total _)
      · rw [entriesSortedDeep_iff]
        intro e he
        rw [mem_sortLe] at he
        exact entriesOfWith_mem_sortedDeep (listDirF recursive fuel (level + 1)) recursive
          (fun cs' => ih (level + 1) cs') cs e he

theorem entriesOfWith_skip_broken (children : List FsNode → List Entry) (recursive : Bool) :
    ∀ (cs : List FsNode),
      entriesOfWith children recursive cs =
        entriesOfWith children recursive (cs.filter (fun c => !c.isBroken)) := by
  intro cs
  induction cs with
  | nil => rfl
  | cons c rest ih =>
    cases c with
    | broken n =>
      have hf : List.filter (fun c => !c.isBroken) (FsNode.broken n :: rest) =
          List.filter (fun c => !c.isBroken) rest := rfl
      rw [hf, ← ih]
      simp only [entriesOfWith]
      split <;> rfl
    | file n =>
      have hf : List.filter (fun c => !c.isBroken) (FsNode.file n :: rest) =
          FsNode.file n :: List.filter (fun c => !c.isBroken) rest := rfl
      rw [hf]
      simp only [entriesOfWith]
      rw [ih]
    | dir n cs' =>
      have hf : List.filter (fun c => !c.isBroken) (FsNode.dir n cs' :: rest) =
          FsNode.dir n cs' :: List.filter (fun c => !c.isBroken) rest := rfl
      rw [hf]
      simp only [entriesOfWith]
      rw [ih]

theorem listDirF_skip_broken (recursive : Bool) (fuel level : Nat) (cs : List FsNode) :
    listDirF recursive fuel level cs =
      listDirF recursive fuel level (cs.filter (fun c => !c.isBroken)) := by
  cases fuel with
  | zero => rfl
  | succ fuel =>
    simp only [listDirF]
    rw [← entriesOfWith_skip_broken]

/-- Counterexample to claim C9 as stated: the extension's `list_dir`
(`_listDir`) applies no ignore filter and no ordering — listing a directory
containing `node_modules` returns it, and a directory whose host order is
`[b.txt (file), A (dir)]` is returned in that order, file before directory. -/
theorem extension_listDir_unfiltered_counterexample :
    ("node_modules".toList, "dir".toList) ∈ extListDir [("node_modules".toList, true)] ∧
    extListDir [("b.txt".toList, false), ("A".toList, true)] =
      [("b.txt".toList, "file".toList), ("A".toList, "dir".toList)] := by
  constructor
  · simp [extListDir]
  · rfl

/-- Claim C9 (amended): the server's `listFiles` excludes the configured
ignore-names at every depth it visits, returns every directory's entries with
folders sorted before files and each group ordered by name (at every depth),
skips per-child stat errors rather than aborting, and on the claim's example
`{b.txt, A/, a.txt}` returns `[A/, a.txt, b.txt]`.  The extension's
`list_dir`, by contrast, returns the host's `readDirectory` entries exactly
as they come, with no ignore filter and no sorting. -/
theorem listFiles_listing_spec :
    (∀ (recursive : Bool) (root : List FsNode),
      entriesClean (listFiles recursive root).1 = true) ∧
    (∀ (recursive : Bool) (root : List FsNode),
      chainLe (listFiles recursive root).1 = true ∧
        entriesSortedDeep (listFiles recursive root).1 = true) ∧
    (∀ (recursive : Bool) (fuel level : Nat) (cs : List FsNode),
      listDirF recursive fuel level cs =
        listDirF recursive fuel level (cs.filter (fun c => !c.isBroken))) ∧
    listFiles true [.file "b.txt".toList, .dir "A".toList [], .file "a.txt".toList] =
      ([.node "A".toList true [], .node "a.txt".toList false [],
        .node "b.txt".toList false []], 3) ∧
    (∀ entries, (extListDir entries).map Prod.fst = entries.map Prod.fst) := by
  refine ⟨?_, ?_, ?_, ?_, ?_⟩
  · intro recursive root
    exact listDirF_clean recursive 4 0 root
  · intro recursive root
    exact listDirF_sorted recursive 4 0 root
  · intro recursive fuel level cs
    exact listDirF_skip_broken recursive fuel level cs
  · rfl
  · intro entries
    simp [extListDir]

end WatchAI
